import Mathlib

/-
Verification of the Flumotion dependency graph (flumotion/manager/depgraph.py).

The DepGraph layer is translated directly from src/flumotion/manager/depgraph.py.
The underlying typed DAG lives in flumotion/common/dag.py, which is not part of
the provided sources; it is modelled from the specification (spec.md section 4.1).
Python exceptions are modelled as error values: a DepGraph operation returns the
post-call state together with an optional error, because in Python an exception
propagates while any mutations already performed persist.
-/

namespace Flumotion

/-- The five node kinds of the dependency graph
(`(WORKER, JOB, COMPONENTSETUP, CLOCKMASTER, COMPONENTSTART) = range(0,5)`). -/
inductive Kind where
  | WORKER
  | JOB
  | COMPONENTSETUP
  | CLOCKMASTER
  | COMPONENTSTART
deriving DecidableEq, Repr

/-- The `source` entry of a component config: the config layer sometimes gives a
single string and sometimes a list of strings (depgraph.py lines 212-216). -/
inductive SourceVal where
  | single (s : String)
  | many (ss : List String)
deriving DecidableEq, Repr

/-- A component handle: the attributes the depgraph reads via `.get(...)`:
`name`, `parent` (flow id), `workerRequested` (empty string means none) and
`config['source']` (absent when the component has no eaters). -/
structure Component where
  name : String
  parent : String
  workerRequested : String
  source : Option SourceVal
deriving DecidableEq, Repr

/-- A graph object: worker vertices are keyed by the worker name string, all
other vertices by the component handle. -/
inductive Obj where
  | worker (w : String)
  | comp (c : Component)
deriving DecidableEq, Repr

/-- A vertex of the typed DAG is a pair `(object, kind)`. -/
abbrev Vertex := Obj × Kind

/-- `component.get('name')`: only component objects carry a name. -/
def objName : Obj → Option String
  | .worker _ => none
  | .comp c => some c.name

/-- `component.get('parent')`: only component objects carry a flow identifier. -/
def objParent : Obj → Option String
  | .worker _ => none
  | .comp c => some c.parent

/-- `config['source']` of an object, already normalized to a list
(depgraph.py lines 203-216: absent key means no eaters, a lone string is
wrapped into a one-element list). -/
def objSource : Obj → Option (List String)
  | .worker _ => none
  | .comp c =>
      match c.source with
      | none => none
      | some (.single s) => some [s]
      | some (.many ss) => some ss

/-- The characters before the first colon. -/
def beforeColon : List Char → List Char
  | [] => []
  | ch :: rest => if ch = ':' then [] else ch :: beforeColon rest

/-- `name = string.split(eater, ':')` followed by `name[0]`: the prefix of a
source entry before the first colon names the feeding component. -/
def feederNameOf (entry : String) : String := { data := beforeColon entry.data }

/-- Error kinds raised by the graph operations (spec.md section 7; in the
Python source they all surface as `KeyError`). -/
inductive Err where
  | alreadyExists
  | notFound
  | wouldCycle
  | componentNotAdded
  | noMappedFeeder (entry : String)
deriving DecidableEq, Repr

/-- Modelled from the spec: the typed DAG of flumotion/common/dag.py (not in
the provided sources).  Vertices are `(object, kind)` pairs kept in insertion
order; edges are parent-to-child pairs of vertices, also in insertion order. -/
structure DAG where
  nodes : List Vertex
  edges : List (Vertex × Vertex)
deriving DecidableEq, Repr

/-- The one-step successors of a vertex along the edge list. -/
def succs (E : List (Vertex × Vertex)) (a : Vertex) : List Vertex :=
  (E.filter (fun e => decide (e.1 = a))).map (fun e => e.2)

/-- Append to `s` the members of `batch` not already present, in order. -/
def insertAllNew (s batch : List Vertex) : List Vertex :=
  batch.foldl (fun acc x => if x ∈ acc then acc else acc ++ [x]) s

/-- One round of forward expansion of a vertex set along the edges. -/
def expand (E : List (Vertex × Vertex)) (s : List Vertex) : List Vertex :=
  insertAllNew s (s.flatMap (succs E))

/-- Iterated forward expansion. -/
def iterExpand (E : List (Vertex × Vertex)) : Nat → List Vertex → List Vertex
  | 0, s => s
  | n + 1, s => iterExpand E n (expand E s)

/-- The set of vertices reachable from `v` by a nonempty forward path:
iterating expansion from the successors of `v` enough times to saturate. -/
def descList (E : List (Vertex × Vertex)) (v : Vertex) : List Vertex :=
  iterExpand E (E.length + 1) (insertAllNew [] (succs E v))

namespace DAG

/-- Modelled from the spec: `HasNode(obj, kind)` membership test. -/
def hasNode (d : DAG) (v : Vertex) : Bool := decide (v ∈ d.nodes)

/-- Modelled from the spec: `AddNode` fails with `AlreadyExists` if the vertex
is present, otherwise appends it in insertion order. -/
def addNode (d : DAG) (v : Vertex) : Except Err DAG :=
  if d.hasNode v then .error .alreadyExists
  else .ok { d with nodes := d.nodes ++ [v] }

/-- Modelled from the spec: `RemoveNode` fails with `NotFound` when the vertex
is absent; removes the vertex together with all incident edges. -/
def removeNode (d : DAG) (v : Vertex) : Except Err DAG :=
  if d.hasNode v then
    .ok { nodes := d.nodes.erase v,
          edges := d.edges.filter (fun e => decide (¬ (e.1 = v ∨ e.2 = v))) }
  else .error .notFound

/-- Modelled from the spec: `AddEdge` fails with `NotFound` when an endpoint is
absent, with `AlreadyExists` when the exact labeled edge is present, and with
`WouldCycle` when depth-first search from the proposed child reaches the
proposed parent; it never partially modifies. -/
def addEdge (d : DAG) (p c : Vertex) : Except Err DAG :=
  if d.hasNode p && d.hasNode c then
    if (p, c) ∈ d.edges then .error .alreadyExists
    else if p = c ∨ p ∈ descList d.edges c then .error .wouldCycle
    else .ok { d with edges := d.edges ++ [(p, c)] }
  else .error .notFound

/-- Modelled from the spec: `RemoveEdge` fails with `NotFound` when the exact
edge is absent. -/
def removeEdge (d : DAG) (p c : Vertex) : Except Err DAG :=
  if (p, c) ∈ d.edges then .ok { d with edges := d.edges.erase (p, c) }
  else .error .notFound

/-- Modelled from the spec: `GetAllNodesByKind` returns the objects of the
vertices of the given kind, in insertion order. -/
def getAllNodesByType (d : DAG) (k : Kind) : List Obj :=
  (d.nodes.filter (fun v => decide (v.2 = k))).map (fun v => v.1)

/-- Modelled from the spec: `GetOffspringTyped` returns the transitive forward
descendants of a vertex, excluding the start vertex itself. -/
def getOffspringTyped (d : DAG) (v : Vertex) : List Vertex :=
  (descList d.edges v).filter (fun u => decide (u ≠ v))

/-- A vertex of `rem` is ready when no edge reaches it from inside `rem`. -/
def readyIn (E : List (Vertex × Vertex)) (rem : List Vertex) (v : Vertex) : Bool :=
  E.all (fun e => !(decide (e.2 = v ∧ e.1 ∈ rem)))

/-- Kahn elimination loop: repeatedly emit the first remaining vertex (in
insertion order) whose in-degree among the remaining vertices is zero. -/
def sortLoop (E : List (Vertex × Vertex)) : Nat → List Vertex → List Vertex
  | 0, _ => []
  | n + 1, rem =>
      match rem.find? (readyIn E rem) with
      | some v => v :: sortLoop E n (rem.erase v)
      | none => []

/-- Modelled from the spec: `Sort()` is Kahn's algorithm with the
insertion-order tiebreak. -/
def sort (d : DAG) : List Vertex :=
  sortLoop d.edges d.nodes.length d.nodes

end DAG

/-- Look up a vertex in the liveness map (`self._state[v]`). -/
def lookupSt : List (Vertex × Bool) → Vertex → Option Bool
  | [], _ => none
  | (k, b) :: rest, v => if k = v then some b else lookupSt rest v

/-- Dictionary assignment `self._state[v] = b`: replace the binding when the
key is present, append it otherwise. -/
def insertSt : List (Vertex × Bool) → Vertex → Bool → List (Vertex × Bool)
  | [], v, b => [(v, b)]
  | (k, c) :: rest, v, b =>
      if k = v then (v, b) :: rest else (k, c) :: insertSt rest v b

/-- Dictionary deletion `del self._state[v]`. -/
def eraseSt (st : List (Vertex × Bool)) (v : Vertex) : List (Vertex × Bool) :=
  st.filter (fun p => decide (p.1 ≠ v))

/-- The dependency graph: a typed DAG plus the boolean liveness map `_state`. -/
structure DepGraph where
  dag : DAG
  state : List (Vertex × Bool)
deriving DecidableEq, Repr

/-- The keys of the liveness map. -/
def stateKeys (g : DepGraph) : List Vertex := g.state.map (fun p => p.1)

/-- The empty dependency graph built by `DepGraph.__init__`. -/
def DepGraph.initial : DepGraph := { dag := { nodes := [], edges := [] }, state := [] }

/-- Sequencing with Python exception semantics: once an error occurred, the
rest of the operation is skipped and the state reached so far is kept. -/
def andThen : DepGraph × Option Err → (DepGraph → DepGraph × Option Err) →
    DepGraph × Option Err
  | (g, some e), _ => (g, some e)
  | (g, none), f => f g

/-- Run a step for each list element, aborting at the first error while
keeping the state mutated so far (a Python `for` loop over fallible steps). -/
def runAll (f : α → DepGraph → DepGraph × Option Err) :
    List α → DepGraph → DepGraph × Option Err
  | [], g => (g, none)
  | x :: xs, g =>
      match f x g with
      | (g1, none) => runAll f xs g1
      | (g1, some e) => (g1, some e)

namespace DepGraph

/-- `DepGraph._addNode`: add the vertex to the DAG and initialize its liveness
entry to `False`; on a DAG error nothing has been mutated. -/
def addNodeD (g : DepGraph) (o : Obj) (k : Kind) : DepGraph × Option Err :=
  match g.dag.addNode (o, k) with
  | .ok d => ({ dag := d, state := insertSt g.state (o, k) false }, none)
  | .error e => (g, some e)

/-- `DepGraph._addEdge`: delegate to the DAG. -/
def addEdgeD (g : DepGraph) (p c : Vertex) : DepGraph × Option Err :=
  match g.dag.addEdge p c with
  | .ok d => ({ dag := d, state := g.state }, none)
  | .error e => (g, some e)

/-- `DepGraph.addWorker`: create `(name, WORKER)` unless already present
(depgraph.py lines 137-146). Never raises. -/
def addWorker (g : DepGraph) (w : String) : DepGraph :=
  if g.dag.hasNode (.worker w, .WORKER) then g
  else (g.addNodeD (.worker w) .WORKER).1

/-- `DepGraph.setComponentWorker`: add the `WORKER -> JOB` edge when both
vertices exist, raise `KeyError` otherwise (depgraph.py lines 174-188). -/
def setComponentWorker (g : DepGraph) (c : Component) (w : String) :
    DepGraph × Option Err :=
  if g.dag.hasNode (.worker w, .WORKER) && g.dag.hasNode (.comp c, .JOB) then
    g.addEdgeD (.worker w, .WORKER) (.comp c, .JOB)
  else (g, some .notFound)

/-- `DepGraph.addComponent` (depgraph.py lines 114-135): add the JOB,
COMPONENTSTART and COMPONENTSETUP vertices, the JOB -> SETUP edge, handle the
requested worker, then add the SETUP -> START edge. -/
def addComponent (g : DepGraph) (c : Component) : DepGraph × Option Err :=
  andThen (g.addNodeD (.comp c) .JOB) (fun g1 =>
  andThen (g1.addNodeD (.comp c) .COMPONENTSTART) (fun g2 =>
  andThen (g2.addNodeD (.comp c) .COMPONENTSETUP) (fun g3 =>
  andThen (g3.addEdgeD (.comp c, .JOB) (.comp c, .COMPONENTSETUP)) (fun g4 =>
  andThen (if c.workerRequested = "" then (g4, none)
           else setComponentWorker (addWorker g4 c.workerRequested) c
                  c.workerRequested) (fun g5 =>
  g5.addEdgeD (.comp c, .COMPONENTSETUP) (.comp c, .COMPONENTSTART))))))

/-- The kind list `self.types = range(0, 5)` iterated by `removeComponent`. -/
def allKinds : List Kind :=
  [.WORKER, .JOB, .COMPONENTSETUP, .CLOCKMASTER, .COMPONENTSTART]

/-- `DepGraph.removeComponent` (depgraph.py lines 148-160): for each kind,
drop the vertex and its liveness entry when present.  The `hasNode` guard
makes the inner removal infallible. -/
def removeComponent (g : DepGraph) (c : Component) : DepGraph :=
  allKinds.foldl (fun gg k =>
    if gg.dag.hasNode (.comp c, k) then
      match gg.dag.removeNode (.comp c, k) with
      | .ok d => { dag := d, state := eraseSt gg.state (.comp c, k) }
      | .error _ => gg
    else gg) g

/-- `DepGraph.removeWorker` (depgraph.py lines 162-172): drop the vertex and
its liveness entry when present; silently do nothing otherwise. -/
def removeWorker (g : DepGraph) (w : String) : DepGraph × Option Err :=
  if g.dag.hasNode (.worker w, .WORKER) then
    match g.dag.removeNode (.worker w, .WORKER) with
    | .ok d => ({ dag := d, state := eraseSt g.state (.worker w, .WORKER) }, none)
    | .error e => (g, some e)
  else (g, none)

/-- One iteration of the clock-master loop (depgraph.py lines 106-110): make a
COMPONENTSTART vertex of the same parent flow depend on the clock master. -/
def clockEdgeStep (c : Component) (start : Obj) (g : DepGraph) :
    DepGraph × Option Err :=
  if objParent start = some c.parent then
    g.addEdgeD (.comp c, .CLOCKMASTER) (start, .COMPONENTSTART)
  else (g, none)

/-- `DepGraph.addClockMaster` (depgraph.py lines 89-112): requires the JOB
vertex, creates the CLOCKMASTER vertex, wires SETUP -> CLOCKMASTER, then makes
every COMPONENTSTART vertex of the same parent flow depend on it. -/
def addClockMaster (g : DepGraph) (c : Component) : DepGraph × Option Err :=
  if g.dag.hasNode (.comp c, .JOB) then
    andThen (g.addNodeD (.comp c) .CLOCKMASTER) (fun g1 =>
    andThen (g1.addEdgeD (.comp c, .COMPONENTSETUP) (.comp c, .CLOCKMASTER))
      (fun g2 =>
        runAll (clockEdgeStep c) (g2.dag.getAllNodesByType .COMPONENTSTART) g2))
  else (g, some .componentNotAdded)

/-- `self._addEdge(...)` wrapped in `try/except KeyError: pass` for the case
where the edge is already there (depgraph.py lines 230-237): the
`AlreadyExists` error is swallowed, other errors propagate. -/
def tryAddEdgeSwallow (g : DepGraph) (p c : Vertex) : DepGraph × Option Err :=
  match g.addEdgeD p c with
  | (g1, none) => (g1, none)
  | (_, some .alreadyExists) => (g, none)
  | (g1, some e) => (g1, some e)

/-- The inner feeder loop of `mapEatersToFeeders` (depgraph.py lines 222-243):
scan all COMPONENTSETUP objects; on a name match add the SETUP -> SETUP edge
(swallowing duplicates), record that a feeder was found, and add the
START -> START edge (swallowing duplicates). -/
def feederLoop (ec : Obj) (nm : String) :
    List Obj → DepGraph → Bool → (DepGraph × Bool) × Option Err
  | [], g, found => ((g, found), none)
  | fc :: rest, g, found =>
      if objName fc = some nm then
        match tryAddEdgeSwallow g (fc, .COMPONENTSETUP) (ec, .COMPONENTSETUP) with
        | (g1, some e) => ((g1, found), some e)
        | (g1, none) =>
            match tryAddEdgeSwallow g1 (fc, .COMPONENTSTART) (ec, .COMPONENTSTART) with
            | (g2, some e) => ((g2, true), some e)
            | (g2, none) => feederLoop ec nm rest g2 true
      else feederLoop ec nm rest g found

/-- Handling of one source entry (depgraph.py lines 217-246): run the feeder
loop and raise `KeyError` when no feeder was found. -/
def entryStep (comps : List Obj) (ec : Obj) (entry : String) (g : DepGraph) :
    DepGraph × Option Err :=
  match feederLoop ec (feederNameOf entry) comps g false with
  | ((g1, _), some e) => (g1, some e)
  | ((g1, found), none) =>
      if found then (g1, none) else (g1, some (.noMappedFeeder entry))

/-- Handling of one eater component (depgraph.py lines 199-246): components
without a `source` config are skipped, otherwise each entry is processed. -/
def eaterStep (comps : List Obj) (ec : Obj) (g : DepGraph) :
    DepGraph × Option Err :=
  match objSource ec with
  | none => (g, none)
  | some entries => runAll (entryStep comps ec) entries g

/-- `DepGraph.mapEatersToFeeders` (depgraph.py lines 191-246): for every
COMPONENTSETUP object, wire its declared sources to their feeders. -/
def mapEatersToFeeders (g : DepGraph) : DepGraph × Option Err :=
  let comps := g.dag.getAllNodesByType .COMPONENTSETUP
  runAll (eaterStep comps) comps g

/-- `DepGraph._setState` (depgraph.py lines 286-298): record the value; when
setting to `False`, also set to `False` every typed offspring with the same
object. -/
def setState (g : DepGraph) (o : Obj) (k : Kind) (value : Bool) : DepGraph :=
  let st1 := insertSt g.state (o, k) value
  if value then { g with state := st1 }
  else
    let off := g.dag.getOffspringTyped (o, k)
    { g with
        state := off.foldl
          (fun s kid => if kid.1 = o then insertSt s kid false else s) st1 }

/-- `setComponentStarted`. -/
def setComponentStarted (g : DepGraph) (c : Component) : DepGraph :=
  g.setState (.comp c) .COMPONENTSTART true

/-- `setComponentNotStarted`. -/
def setComponentNotStarted (g : DepGraph) (c : Component) : DepGraph :=
  g.setState (.comp c) .COMPONENTSTART false

/-- `setComponentSetup`. -/
def setComponentSetup (g : DepGraph) (c : Component) : DepGraph :=
  g.setState (.comp c) .COMPONENTSETUP true

/-- `setComponentNotSetup`. -/
def setComponentNotSetup (g : DepGraph) (c : Component) : DepGraph :=
  g.setState (.comp c) .COMPONENTSETUP false

/-- `setJobStarted`. -/
def setJobStarted (g : DepGraph) (c : Component) : DepGraph :=
  g.setState (.comp c) .JOB true

/-- `setJobStopped`. -/
def setJobStopped (g : DepGraph) (c : Component) : DepGraph :=
  g.setState (.comp c) .JOB false

/-- `setWorkerStarted`. -/
def setWorkerStarted (g : DepGraph) (w : String) : DepGraph :=
  g.setState (.worker w) .WORKER true

/-- `setWorkerStopped`. -/
def setWorkerStopped (g : DepGraph) (w : String) : DepGraph :=
  g.setState (.worker w) .WORKER false

/-- `setClockMasterStarted`. -/
def setClockMasterStarted (g : DepGraph) (c : Component) : DepGraph :=
  g.setState (.comp c) .CLOCKMASTER true

/-- `setClockMasterStopped`. -/
def setClockMasterStopped (g : DepGraph) (c : Component) : DepGraph :=
  g.setState (.comp c) .CLOCKMASTER false

/-- Remove each offspring vertex from the accumulator (depgraph.py lines
273-275 and 279-281: `if offspring in toBeStarted: toBeStarted.remove(...)`). -/
def removeAllIn (acc offs : List Vertex) : List Vertex :=
  offs.foldl (fun a kid => a.erase kid) acc

/-- The pruning loop of `whatShouldBeStarted` (depgraph.py lines 263-282):
iterate over a copy of the sorted list; drop vertices that are already live;
drop non-live WORKER and JOB vertices together with their offspring.  A
missing liveness entry raises `KeyError`. -/
def wsbsLoop (g : DepGraph) : List Vertex → List Vertex → Except Err (List Vertex)
  | [], acc => .ok acc
  | obj :: rest, acc =>
      if obj ∈ acc then
        match lookupSt g.state obj with
        | none => .error .notFound
        | some b =>
            if b then wsbsLoop g rest (acc.erase obj)
            else if obj.2 = .WORKER then
              wsbsLoop g rest
                ((removeAllIn acc (g.dag.getOffspringTyped obj)).erase obj)
            else if obj.2 = .JOB then
              wsbsLoop g rest
                ((removeAllIn acc (g.dag.getOffspringTyped obj)).erase obj)
            else wsbsLoop g rest acc
      else wsbsLoop g rest acc

/-- `DepGraph.whatShouldBeStarted` (depgraph.py lines 248-284). -/
def whatShouldBeStarted (g : DepGraph) : Except Err (List Vertex) :=
  let l := g.dag.sort
  wsbsLoop g l l

end DepGraph

/-- The public operations of the dependency graph, used to define the
reachable states. -/
inductive Op where
  | addComponent (c : Component)
  | addWorker (w : String)
  | removeComponent (c : Component)
  | removeWorker (w : String)
  | setComponentWorker (c : Component) (w : String)
  | addClockMaster (c : Component)
  | mapEatersToFeeders
  | setComponentStarted (c : Component)
  | setComponentNotStarted (c : Component)
  | setComponentSetup (c : Component)
  | setComponentNotSetup (c : Component)
  | setJobStarted (c : Component)
  | setJobStopped (c : Component)
  | setWorkerStarted (w : String)
  | setWorkerStopped (w : String)
  | setClockMasterStarted (c : Component)
  | setClockMasterStopped (c : Component)

/-- The state an operation leaves behind, whether or not it raised (Python
mutations performed before an exception persist). -/
def applyOp (g : DepGraph) : Op → DepGraph
  | .addComponent c => (g.addComponent c).1
  | .addWorker w => g.addWorker w
  | .removeComponent c => g.removeComponent c
  | .removeWorker w => (g.removeWorker w).1
  | .setComponentWorker c w => (g.setComponentWorker c w).1
  | .addClockMaster c => (g.addClockMaster c).1
  | .mapEatersToFeeders => g.mapEatersToFeeders.1
  | .setComponentStarted c => g.setComponentStarted c
  | .setComponentNotStarted c => g.setComponentNotStarted c
  | .setComponentSetup c => g.setComponentSetup c
  | .setComponentNotSetup c => g.setComponentNotSetup c
  | .setJobStarted c => g.setJobStarted c
  | .setJobStopped c => g.setJobStopped c
  | .setWorkerStarted w => g.setWorkerStarted w
  | .setWorkerStopped w => g.setWorkerStopped w
  | .setClockMasterStarted c => g.setClockMasterStarted c
  | .setClockMasterStopped c => g.setClockMasterStopped c

/-- The vertex a liveness setter touches; `none` for the other operations. -/
def Op.setterVertex : Op → Option Vertex
  | .setComponentStarted c => some (.comp c, .COMPONENTSTART)
  | .setComponentNotStarted c => some (.comp c, .COMPONENTSTART)
  | .setComponentSetup c => some (.comp c, .COMPONENTSETUP)
  | .setComponentNotSetup c => some (.comp c, .COMPONENTSETUP)
  | .setJobStarted c => some (.comp c, .JOB)
  | .setJobStopped c => some (.comp c, .JOB)
  | .setWorkerStarted w => some (.worker w, .WORKER)
  | .setWorkerStopped w => some (.worker w, .WORKER)
  | .setClockMasterStarted c => some (.comp c, .CLOCKMASTER)
  | .setClockMasterStopped c => some (.comp c, .CLOCKMASTER)
  | _ => none

/-- States reachable by any sequence of public operations. -/
inductive Reachable : DepGraph → Prop where
  | init : Reachable DepGraph.initial
  | step {g : DepGraph} (op : Op) : Reachable g → Reachable (applyOp g op)

/-- States reachable when every liveness setter is only applied to a vertex
present in the graph. -/
inductive ReachableS : DepGraph → Prop where
  | init : ReachableS DepGraph.initial
  | step {g : DepGraph} (op : Op) : ReachableS g →
      (∀ v, op.setterVertex = some v → g.dag.hasNode v = true) →
      ReachableS (applyOp g op)

/-- The edge relation of an edge list. -/
def erel (E : List (Vertex × Vertex)) (a b : Vertex) : Prop := (a, b) ∈ E

/-- A vertex set closed under following edges forward. -/
def Closed (E : List (Vertex × Vertex)) (s : List Vertex) : Prop :=
  ∀ a ∈ s, ∀ b, (a, b) ∈ E → b ∈ s

/-- No nonempty path returns to its starting vertex. -/
def Acyclic (E : List (Vertex × Vertex)) : Prop :=
  ∀ v, ¬ Relation.TransGen (erel E) v v

theorem mem_succs {E : List (Vertex × Vertex)} {a b : Vertex} :
    b ∈ succs E a ↔ (a, b) ∈ E := by
  unfold succs
  simp only [List.mem_map, List.mem_filter, decide_eq_true_eq]
  constructor
  · rintro ⟨e, ⟨he, h1⟩, h2⟩
    obtain ⟨x, y⟩ := e
    simp only at h1 h2
    subst h1; subst h2; exact he
  · intro h
    exact ⟨(a, b), ⟨h, rfl⟩, rfl⟩

theorem insertAllNew_cons (s : List Vertex) (b : Vertex) (t : List Vertex) :
    insertAllNew s (b :: t) = insertAllNew (if b ∈ s then s else s ++ [b]) t := rfl

theorem mem_insertAllNew {s t : List Vertex} {x : Vertex} :
    x ∈ insertAllNew s t ↔ x ∈ s ∨ x ∈ t := by
  induction t generalizing s with
  | nil => simp [insertAllNew]
  | cons b t ih =>
      rw [insertAllNew_cons]
      by_cases hb : b ∈ s
      · rw [if_pos hb, ih]
        simp only [List.mem_cons]
        constructor
        · rintro (h | h)
          · exact Or.inl h
          · exact Or.inr (Or.inr h)
        · rintro (h | rfl | h)
          · exact Or.inl h
          · exact Or.inl hb
          · exact Or.inr h
      · rw [if_neg hb, ih]
        simp only [List.mem_append, List.mem_singleton, List.mem_cons]
        tauto

theorem insertAllNew_eq_append (s t : List Vertex) :
    ∃ u, insertAllNew s t = s ++ u ∧ ∀ x ∈ u, x ∈ t := by
  induction t generalizing s with
  | nil => exact ⟨[], by simp [insertAllNew], by simp⟩
  | cons b t ih =>
      rw [insertAllNew_cons]
      by_cases hb : b ∈ s
      · rw [if_pos hb]
        obtain ⟨u, hu, hx⟩ := ih s
        exact ⟨u, hu, fun x hxu => List.mem_cons_of_mem _ (hx x hxu)⟩
      · rw [if_neg hb]
        obtain ⟨u, hu, hx⟩ := ih (s ++ [b])
        refine ⟨b :: u, ?_, ?_⟩
        · rw [hu]; simp
        · intro x hx2
          rcases List.mem_cons.mp hx2 with rfl | hxu
          · exact List.mem_cons_self x t
          · exact List.mem_cons_of_mem _ (hx x hxu)

theorem nodup_insertAllNew {s : List Vertex} (t : List Vertex) (hs : s.Nodup) :
    (insertAllNew s t).Nodup := by
  induction t generalizing s with
  | nil => exact hs
  | cons b t ih =>
      rw [insertAllNew_cons]
      by_cases hb : b ∈ s
      · rw [if_pos hb]; exact ih hs
      · rw [if_neg hb]
        refine ih ?_
        rw [List.nodup_append]
        exact ⟨hs, List.nodup_singleton b, by simpa [List.disjoint_singleton] using hb⟩

theorem insertAllNew_eq_self {s t : List Vertex} (h : ∀ x ∈ t, x ∈ s) :
    insertAllNew s t = s := by
  induction t generalizing s with
  | nil => rfl
  | cons b t ih =>
      rw [insertAllNew_cons, if_pos (h b (List.mem_cons_self b t))]
      exact ih (fun x hx => h x (List.mem_cons_of_mem _ hx))

theorem subset_expand (E : List (Vertex × Vertex)) (s : List Vertex) :
    s ⊆ expand E s :=
  fun _ hx => mem_insertAllNew.mpr (Or.inl hx)

theorem expand_eq_of_closed {E : List (Vertex × Vertex)} {s : List Vertex}
    (h : Closed E s) : expand E s = s := by
  unfold expand
  apply insertAllNew_eq_self
  intro x hx
  obtain ⟨a, ha, hxs⟩ := List.mem_flatMap.mp hx
  exact h a ha x (mem_succs.mp hxs)

theorem closed_of_expand_eq {E : List (Vertex × Vertex)} {s : List Vertex}
    (h : expand E s = s) : Closed E s := by
  intro a ha b hab
  have hb : b ∈ expand E s :=
    mem_insertAllNew.mpr (Or.inr (List.mem_flatMap.mpr ⟨a, ha, mem_succs.mpr hab⟩))
  rwa [h] at hb

theorem iterExpand_of_closed {E : List (Vertex × Vertex)} {s : List Vertex}
    (h : Closed E s) : ∀ n, iterExpand E n s = s := by
  intro n
  induction n with
  | zero => rfl
  | succ n ih =>
      show iterExpand E n (expand E s) = s
      rw [expand_eq_of_closed h, ih]

theorem subset_iterExpand (E : List (Vertex × Vertex)) :
    ∀ n s, s ⊆ iterExpand E n s := by
  intro n
  induction n with
  | zero => intro s x hx; exact hx
  | succ n ih =>
      intro s x hx
      exact ih (expand E s) (subset_expand E s hx)

theorem iterExpand_sound {E : List (Vertex × Vertex)} {P : Vertex → Prop}
    (hstep : ∀ a b, P a → (a, b) ∈ E → P b) :
    ∀ n s, (∀ x ∈ s, P x) → ∀ x ∈ iterExpand E n s, P x := by
  intro n
  induction n with
  | zero => intro s hs x hx; exact hs x hx
  | succ n ih =>
      intro s hs x hx
      refine ih (expand E s) ?_ x hx
      intro y hy
      rcases mem_insertAllNew.mp hy with h | h
      · exact hs y h
      · obtain ⟨a, ha, hys⟩ := List.mem_flatMap.mp h
        exact hstep a y (hs a ha) (mem_succs.mp hys)

theorem expand_subset_targets {E : List (Vertex × Vertex)} {s : List Vertex}
    (h : ∀ x ∈ s, x ∈ E.map (fun e => e.2)) :
    ∀ x ∈ expand E s, x ∈ E.map (fun e => e.2) := by
  intro x hx
  rcases mem_insertAllNew.mp hx with h1 | h1
  · exact h x h1
  · obtain ⟨a, _, hxs⟩ := List.mem_flatMap.mp h1
    exact List.mem_map.mpr ⟨(a, x), mem_succs.mp hxs, rfl⟩

theorem closed_iterExpand {E : List (Vertex × Vertex)} :
    ∀ n s, s.Nodup → (∀ x ∈ s, x ∈ E.map (fun e => e.2)) →
      E.length + 1 ≤ n + s.length → Closed E (iterExpand E n s) := by
  intro n
  induction n with
  | zero =>
      intro s hnd hsub hlen
      exfalso
      have h1 : s.length ≤ E.length := by
        calc s.length = s.toFinset.card := (List.toFinset_card_of_nodup hnd).symm
          _ ≤ (E.map (fun e => e.2)).toFinset.card := by
                refine Finset.card_le_card ?_
                intro x hx
                exact List.mem_toFinset.mpr (hsub x (List.mem_toFinset.mp hx))
          _ ≤ (E.map (fun e => e.2)).length := List.toFinset_card_le _
          _ = E.length := List.length_map _ _
      omega
  | succ n ih =>
      intro s hnd hsub hlen
      by_cases hfix : expand E s = s
      · have hcl := closed_of_expand_eq hfix
        show Closed E (iterExpand E n (expand E s))
        rw [hfix, iterExpand_of_closed hcl n]
        exact hcl
      · have hgrow : s.length + 1 ≤ (expand E s).length := by
          obtain ⟨u, hu, _⟩ := insertAllNew_eq_append s (s.flatMap (succs E))
          have heq : expand E s = s ++ u := hu
          cases u with
          | nil => exact absurd (by rw [heq]; simp) hfix
          | cons b u2 => rw [heq]; simp
        show Closed E (iterExpand E n (expand E s))
        refine ih (expand E s) (nodup_insertAllNew _ hnd) (expand_subset_targets hsub) ?_
        omega

theorem descList_sound {E : List (Vertex × Vertex)} {v x : Vertex}
    (h : x ∈ descList E v) : Relation.TransGen (erel E) v x := by
  unfold descList at h
  refine iterExpand_sound ?_ _ _ ?_ x h
  · intro a b ha hab
    exact ha.tail hab
  · intro y hy
    rcases mem_insertAllNew.mp hy with h1 | h1
    · simp at h1
    · exact Relation.TransGen.single (mem_succs.mp h1)

theorem descList_closed (E : List (Vertex × Vertex)) (v : Vertex) :
    Closed E (descList E v) := by
  unfold descList
  apply closed_iterExpand
  · exact nodup_insertAllNew _ List.nodup_nil
  · intro x hx
    rcases mem_insertAllNew.mp hx with h | h
    · simp at h
    · exact List.mem_map.mpr ⟨(v, x), mem_succs.mp h, rfl⟩
  · omega

theorem succs_subset_descList (E : List (Vertex × Vertex)) (v : Vertex) :
    ∀ x ∈ succs E v, x ∈ descList E v := by
  intro x hx
  unfold descList
  exact subset_iterExpand E _ _ (mem_insertAllNew.mpr (Or.inr hx))

theorem mem_of_reflTransGen {E : List (Vertex × Vertex)} {s : List Vertex}
    (hc : Closed E s) {a b : Vertex}
    (hab : Relation.ReflTransGen (erel E) a b) (ha : a ∈ s) : b ∈ s := by
  induction hab with
  | refl => exact ha
  | tail _ h2 ih => exact hc _ ih _ h2

theorem descList_complete {E : List (Vertex × Vertex)} {v x : Vertex}
    (h : Relation.TransGen (erel E) v x) : x ∈ descList E v := by
  obtain ⟨b, hvb, hbx⟩ := Relation.TransGen.head'_iff.mp h
  exact mem_of_reflTransGen (descList_closed E v) hbx
    (succs_subset_descList E v b (mem_succs.mpr hvb))

theorem mem_descList_iff {E : List (Vertex × Vertex)} {v x : Vertex} :
    x ∈ descList E v ↔ Relation.TransGen (erel E) v x :=
  ⟨descList_sound, descList_complete⟩

theorem descList_subset_targets {E : List (Vertex × Vertex)} {v x : Vertex}
    (h : x ∈ descList E v) : ∃ e ∈ E, e.2 = x := by
  obtain ⟨b, _, hbx⟩ := (Relation.TransGen.tail'_iff.mp (descList_sound h))
  exact ⟨(b, x), hbx, rfl⟩

theorem mem_getOffspringTyped {d : DAG} {v u : Vertex} :
    u ∈ d.getOffspringTyped v ↔
      Relation.TransGen (erel d.edges) v u ∧ u ≠ v := by
  unfold DAG.getOffspringTyped
  simp only [List.mem_filter, decide_eq_true_eq]
  exact ⟨fun ⟨h1, h2⟩ => ⟨descList_sound h1, h2⟩,
         fun ⟨h1, h2⟩ => ⟨descList_complete h1, h2⟩⟩

theorem erel_append_single {E : List (Vertex × Vertex)} {p c a b : Vertex}
    (h : erel (E ++ [(p, c)]) a b) : erel E a b ∨ (a = p ∧ b = c) := by
  unfold erel at h
  rcases List.mem_append.mp h with h1 | h1
  · exact Or.inl h1
  · right
    simpa using h1

theorem transGen_append_single {E : List (Vertex × Vertex)} {p c a b : Vertex}
    (h : Relation.TransGen (erel (E ++ [(p, c)])) a b) :
    Relation.TransGen (erel E) a b ∨
      (Relation.ReflTransGen (erel E) a p ∧ Relation.ReflTransGen (erel E) c b) := by
  induction h with
  | single h1 =>
      rcases erel_append_single h1 with h2 | ⟨rfl, rfl⟩
      · exact Or.inl (Relation.TransGen.single h2)
      · exact Or.inr ⟨Relation.ReflTransGen.refl, Relation.ReflTransGen.refl⟩
  | tail _ h2 ih =>
      rcases erel_append_single h2 with h3 | ⟨he1, he2⟩
      · rcases ih with h4 | ⟨h4, h5⟩
        · exact Or.inl (h4.tail h3)
        · exact Or.inr ⟨h4, h5.tail h3⟩
      · subst he1; subst he2
        rcases ih with h4 | ⟨h4, _⟩
        · exact Or.inr ⟨h4.to_reflTransGen, Relation.ReflTransGen.refl⟩
        · exact Or.inr ⟨h4, Relation.ReflTransGen.refl⟩

theorem acyclic_append {E : List (Vertex × Vertex)} {p c : Vertex}
    (hE : Acyclic E) (hnc : ¬ (p = c ∨ p ∈ descList E c)) :
    Acyclic (E ++ [(p, c)]) := by
  intro v hv
  rcases transGen_append_single hv with h1 | ⟨h1, h2⟩
  · exact hE v h1
  · have hcp : Relation.ReflTransGen (erel E) c p := h2.trans h1
    rcases (Relation.reflTransGen_iff_eq_or_transGen.mp hcp) with h3 | h3
    · exact hnc (Or.inl h3)
    · exact hnc (Or.inr (descList_complete h3))

theorem acyclic_of_subset {E F : List (Vertex × Vertex)}
    (hsub : ∀ e ∈ F, e ∈ E) (hE : Acyclic E) : Acyclic F := by
  intro v hv
  refine hE v (Relation.TransGen.mono ?_ hv)
  intro a b h
  exact hsub (a, b) h

theorem acyclic_nil : Acyclic [] := by
  intro v hv
  obtain ⟨b, h1, _⟩ := Relation.TransGen.head'_iff.mp hv
  simp [erel] at h1


theorem lookupSt_insertSt_self (st : List (Vertex × Bool)) (v : Vertex) (b : Bool) :
    lookupSt (insertSt st v b) v = some b := by
  induction st with
  | nil => simp [insertSt, lookupSt]
  | cons p rest ih =>
      obtain ⟨k, c⟩ := p
      by_cases h : k = v
      · subst h
        simp [insertSt, lookupSt]
      · simp [insertSt, lookupSt, h, ih]

theorem lookupSt_insertSt_ne (st : List (Vertex × Bool)) {v u : Vertex} (b : Bool)
    (h : u ≠ v) : lookupSt (insertSt st v b) u = lookupSt st u := by
  induction st with
  | nil => simp [insertSt, lookupSt, (Ne.symm h)]
  | cons p rest ih =>
      obtain ⟨k, c⟩ := p
      by_cases hk : k = v
      · subst hk
        simp [insertSt, lookupSt, (Ne.symm h)]
      · simp [insertSt, lookupSt, hk, ih]

theorem lookupSt_eraseSt_self (st : List (Vertex × Bool)) (v : Vertex) :
    lookupSt (eraseSt st v) v = none := by
  induction st with
  | nil => rfl
  | cons p rest ih =>
      obtain ⟨k, c⟩ := p
      by_cases h : k = v
      · simpa [eraseSt, List.filter_cons, h] using ih
      · simpa [eraseSt, List.filter_cons, h, lookupSt] using ih

theorem lookupSt_eraseSt_ne (st : List (Vertex × Bool)) {v u : Vertex}
    (h : u ≠ v) : lookupSt (eraseSt st v) u = lookupSt st u := by
  induction st with
  | nil => rfl
  | cons p rest ih =>
      obtain ⟨k, c⟩ := p
      by_cases hk : k = v
      · subst hk
        simpa [eraseSt, List.filter_cons, lookupSt, (Ne.symm h)] using ih
      · by_cases hku : k = u
        · subst hku
          simp [eraseSt, List.filter_cons, hk, lookupSt]
        · simpa [eraseSt, List.filter_cons, hk, lookupSt, hku] using ih

theorem lookupSt_setFalse_fold (o : Obj) (off : List Vertex) :
    ∀ (st : List (Vertex × Bool)) (u : Vertex),
      lookupSt (off.foldl
        (fun s kid => if kid.1 = o then insertSt s kid false else s) st) u =
      if u ∈ off ∧ u.1 = o then some false else lookupSt st u := by
  induction off with
  | nil => intro st u; simp
  | cons kid rest ih =>
      intro st u
      rw [List.foldl_cons, ih]
      by_cases hmem : u ∈ rest ∧ u.1 = o
      · rw [if_pos hmem, if_pos ⟨List.mem_cons_of_mem _ hmem.1, hmem.2⟩]
      · rw [if_neg hmem]
        by_cases hko : kid.1 = o
        · rw [if_pos hko]
          by_cases huk : u = kid
          · subst huk
            rw [lookupSt_insertSt_self, if_pos ⟨List.mem_cons_self _ _, hko⟩]
          · rw [lookupSt_insertSt_ne _ _ huk]
            have : ¬ (u ∈ kid :: rest ∧ u.1 = o) := by
              rintro ⟨h1, h2⟩
              rcases List.mem_cons.mp h1 with h3 | h3
              · exact huk h3
              · exact hmem ⟨h3, h2⟩
            rw [if_neg this]
        · rw [if_neg hko]
          have : ¬ (u ∈ kid :: rest ∧ u.1 = o) := by
            rintro ⟨h1, h2⟩
            rcases List.mem_cons.mp h1 with h3 | h3
            · subst h3; exact hko h2
            · exact hmem ⟨h3, h2⟩
          rw [if_neg this]

/-- C2: for a vertex `(o, k)` present in the graph, `_setState(o, k, False)`
sets to `False` the vertex itself and exactly those transitive forward
descendants whose object equals `o`; every other liveness entry, and the
graph itself, are unchanged. -/
theorem setState_false_invalidates_same_obj_offspring
    (g : DepGraph) (o : Obj) (k : Kind)
    (hmem : g.dag.hasNode (o, k) = true) :
    (g.setState o k false).dag = g.dag ∧
    ∀ u : Vertex,
      ((u = (o, k) ∨
        (Relation.TransGen (erel g.dag.edges) (o, k) u ∧ u ≠ (o, k) ∧ u.1 = o)) →
          lookupSt (g.setState o k false).state u = some false) ∧
      (¬ (u = (o, k) ∨
        (Relation.TransGen (erel g.dag.edges) (o, k) u ∧ u ≠ (o, k) ∧ u.1 = o)) →
          lookupSt (g.setState o k false).state u = lookupSt g.state u) := by
  refine ⟨rfl, ?_⟩
  intro u
  have hshape : lookupSt (g.setState o k false).state u =
      if u ∈ g.dag.getOffspringTyped (o, k) ∧ u.1 = o then some false
      else lookupSt (insertSt g.state (o, k) false) u := by
    show lookupSt ((g.dag.getOffspringTyped (o, k)).foldl
        (fun s kid => if kid.1 = o then insertSt s kid false else s)
        (insertSt g.state (o, k) false)) u = _
    rw [lookupSt_setFalse_fold]
  constructor
  · rintro (rfl | ⟨h1, h2, h3⟩)
    · rw [hshape]
      have hnotoff : ¬ ((o, k) ∈ g.dag.getOffspringTyped (o, k) ∧ (o, k).1 = o) := by
        rintro ⟨hmoff, _⟩
        exact (mem_getOffspringTyped.mp hmoff).2 rfl
      rw [if_neg hnotoff, lookupSt_insertSt_self]
    · rw [hshape, if_pos ⟨mem_getOffspringTyped.mpr ⟨h1, h2⟩, h3⟩]
  · intro hn
    rw [hshape]
    have hnotoff : ¬ (u ∈ g.dag.getOffspringTyped (o, k) ∧ u.1 = o) := by
      rintro ⟨hmoff, h3⟩
      obtain ⟨ht, hne⟩ := mem_getOffspringTyped.mp hmoff
      exact hn (Or.inr ⟨ht, hne, h3⟩)
    rw [if_neg hnotoff]
    exact lookupSt_insertSt_ne g.state false (fun h => hn (Or.inl h))

/-- C9: for a vertex `(o, k)` present in the graph, `_setState(o, k, True)`
changes only that single liveness entry: every other entry, the vertex set
and the edge set are unchanged. -/
theorem setState_true_only_target (g : DepGraph) (o : Obj) (k : Kind)
    (hmem : g.dag.hasNode (o, k) = true) :
    (g.setState o k true).dag = g.dag ∧
    lookupSt (g.setState o k true).state (o, k) = some true ∧
    ∀ u : Vertex, u ≠ (o, k) →
      lookupSt (g.setState o k true).state u = lookupSt g.state u := by
  refine ⟨rfl, ?_, ?_⟩
  · exact lookupSt_insertSt_self g.state (o, k) true
  · intro u hu
    exact lookupSt_insertSt_ne g.state true hu

/-- A concrete component with no eaters, used in witness states. -/
def cmpA : Component :=
  { name := "a", parent := "f1", workerRequested := "", source := none }

/-- A concrete component eating from `a` and from a missing component. -/
def cmpB : Component :=
  { name := "b", parent := "f1", workerRequested := "", source := some (.many ["a", "ghost"]) }

/-- A concrete component eating from `y`. -/
def cmpX : Component :=
  { name := "x", parent := "f1", workerRequested := "", source := some (.many ["y"]) }

/-- A concrete component eating from `x`. -/
def cmpY : Component :=
  { name := "y", parent := "f1", workerRequested := "", source := some (.many ["x"]) }

/-- The graph holding component `a`. -/
def gA : DepGraph := (DepGraph.addComponent DepGraph.initial cmpA).1

/-- The graph holding components `a` and `b`. -/
def gAB : DepGraph := (DepGraph.addComponent gA cmpB).1

/-- The graph holding the mutually-eating components `x` and `y`. -/
def gXY : DepGraph :=
  (DepGraph.addComponent (DepGraph.addComponent DepGraph.initial cmpX).1 cmpY).1

theorem DAG_addNode_ok {d d1 : DAG} {v : Vertex} (h : d.addNode v = .ok d1) :
    d1.nodes = d.nodes ++ [v] ∧ d1.edges = d.edges ∧ d.hasNode v = false := by
  unfold DAG.addNode at h
  by_cases h1 : d.hasNode v = true
  · rw [if_pos h1] at h
    cases h
  · rw [if_neg h1] at h
    injection h with h2
    subst h2
    exact ⟨rfl, rfl, Bool.not_eq_true _ ▸ h1⟩

theorem DAG_addNode_error {d : DAG} {v : Vertex} {e : Err}
    (h : d.addNode v = .error e) : e = .alreadyExists ∧ d.hasNode v = true := by
  unfold DAG.addNode at h
  by_cases h1 : d.hasNode v = true
  · rw [if_pos h1] at h
    injection h with h2
    exact ⟨h2.symm, h1⟩
  · rw [if_neg h1] at h
    cases h

theorem DAG_addEdge_ok {d d1 : DAG} {p c : Vertex} (h : d.addEdge p c = .ok d1) :
    d1.nodes = d.nodes ∧ d1.edges = d.edges ++ [(p, c)] ∧
    d.hasNode p = true ∧ d.hasNode c = true ∧ (p, c) ∉ d.edges ∧
    ¬ (p = c ∨ p ∈ descList d.edges c) := by
  unfold DAG.addEdge at h
  by_cases h1 : (d.hasNode p && d.hasNode c) = true
  · rw [if_pos h1] at h
    by_cases h2 : (p, c) ∈ d.edges
    · rw [if_pos h2] at h; cases h
    · rw [if_neg h2] at h
      by_cases h3 : p = c ∨ p ∈ descList d.edges c
      · rw [if_pos h3] at h; cases h
      · rw [if_neg h3] at h
        injection h with h4
        subst h4
        have h1a : d.hasNode p = true ∧ d.hasNode c = true := by simpa using h1
        exact ⟨rfl, rfl, h1a.1, h1a.2, h2, h3⟩
  · rw [if_neg h1] at h
    cases h

theorem DAG_addEdge_already {d : DAG} {p c : Vertex}
    (h : d.addEdge p c = .error .alreadyExists) :
    (p, c) ∈ d.edges ∧ d.hasNode p = true ∧ d.hasNode c = true := by
  unfold DAG.addEdge at h
  by_cases h1 : (d.hasNode p && d.hasNode c) = true
  · rw [if_pos h1] at h
    by_cases h2 : (p, c) ∈ d.edges
    · have h1a : d.hasNode p = true ∧ d.hasNode c = true := by simpa using h1
      exact ⟨h2, h1a.1, h1a.2⟩
    · rw [if_neg h2] at h
      by_cases h3 : p = c ∨ p ∈ descList d.edges c
      · rw [if_pos h3] at h; cases h
      · rw [if_neg h3] at h; cases h
  · rw [if_neg h1] at h; cases h

theorem addNodeD_ok {g g1 : DepGraph} {o : Obj} {k : Kind}
    (h : g.addNodeD o k = (g1, none)) :
    g1.dag.nodes = g.dag.nodes ++ [(o, k)] ∧ g1.dag.edges = g.dag.edges ∧
    g1.state = insertSt g.state (o, k) false ∧ g.dag.hasNode (o, k) = false := by
  unfold DepGraph.addNodeD at h
  cases he : g.dag.addNode (o, k) with
  | ok d =>
      rw [he] at h
      injection h with h4
      obtain ⟨n1, n2, n3⟩ := DAG_addNode_ok he
      subst h4
      exact ⟨n1, n2, rfl, n3⟩
  | error e =>
      rw [he] at h
      cases h

theorem addNodeD_error {g g1 : DepGraph} {o : Obj} {k : Kind} {e : Err}
    (h : g.addNodeD o k = (g1, some e)) :
    g1 = g ∧ e = .alreadyExists ∧ g.dag.hasNode (o, k) = true := by
  unfold DepGraph.addNodeD at h
  cases he : g.dag.addNode (o, k) with
  | ok d => rw [he] at h; cases h
  | error e2 =>
      rw [he] at h
      injection h with h4 h5
      injection h5 with h5
      obtain ⟨n1, n2⟩ := DAG_addNode_error he
      exact ⟨h4.symm, h5 ▸ n1, n2⟩

theorem addEdgeD_ok {g g1 : DepGraph} {p c : Vertex}
    (h : g.addEdgeD p c = (g1, none)) :
    g1.dag.nodes = g.dag.nodes ∧ g1.dag.edges = g.dag.edges ++ [(p, c)] ∧
    g1.state = g.state ∧
    g.dag.hasNode p = true ∧ g.dag.hasNode c = true ∧ (p, c) ∉ g.dag.edges ∧
    ¬ (p = c ∨ p ∈ descList g.dag.edges c) := by
  unfold DepGraph.addEdgeD at h
  cases he : g.dag.addEdge p c with
  | ok d =>
      rw [he] at h
      injection h with h4
      obtain ⟨n1, n2, n3, n4, n5, n6⟩ := DAG_addEdge_ok he
      subst h4
      exact ⟨n1, n2, rfl, n3, n4, n5, n6⟩
  | error e => rw [he] at h; cases h

theorem addEdgeD_error {g g1 : DepGraph} {p c : Vertex} {e : Err}
    (h : g.addEdgeD p c = (g1, some e)) :
    g1 = g ∧ g.dag.addEdge p c = .error e := by
  unfold DepGraph.addEdgeD at h
  cases he : g.dag.addEdge p c with
  | ok d => rw [he] at h; cases h
  | error e2 =>
      rw [he] at h
      injection h with h4 h5
      injection h5 with h5
      exact ⟨h4.symm, by rw [h5]⟩

/-- C6 (amended): `removeWorker(name)` removes the vertex `(name, WORKER)`
together with its liveness entry and all incident edges when the vertex is
present, and silently does nothing (raising no error) when it is absent. -/
theorem removeWorker_present_removes_absent_noop (g : DepGraph) (w : String) :
    (g.dag.hasNode (.worker w, .WORKER) = true →
      g.removeWorker w =
        ({ dag := { nodes := g.dag.nodes.erase (.worker w, .WORKER),
                    edges := g.dag.edges.filter (fun e =>
                      decide (¬ (e.1 = (.worker w, .WORKER) ∨
                                 e.2 = (.worker w, .WORKER)))) },
           state := eraseSt g.state (.worker w, .WORKER) }, none) ∧
      lookupSt (g.removeWorker w).1.state (.worker w, .WORKER) = none) ∧
    (g.dag.hasNode (.worker w, .WORKER) = false →
      g.removeWorker w = (g, none)) := by
  constructor
  · intro h
    have hr : g.removeWorker w =
        ({ dag := { nodes := g.dag.nodes.erase (.worker w, .WORKER),
                    edges := g.dag.edges.filter (fun e =>
                      decide (¬ (e.1 = (.worker w, .WORKER) ∨
                                 e.2 = (.worker w, .WORKER)))) },
           state := eraseSt g.state (.worker w, .WORKER) }, none) := by
      unfold DepGraph.removeWorker DAG.removeNode
      rw [h]
      simp
    refine ⟨hr, ?_⟩
    rw [hr]
    exact lookupSt_eraseSt_self g.state (.worker w, .WORKER)
  · intro h
    unfold DepGraph.removeWorker
    rw [h]
    simp

/-- C6 counterexample: removing an absent worker returns without an error,
while the claim requires a NotFound failure. -/
theorem removeWorker_absent_silent :
    DAG.hasNode DepGraph.initial.dag (Obj.worker "w", Kind.WORKER) = false ∧
    DepGraph.removeWorker DepGraph.initial "w" = (DepGraph.initial, none) := by
  decide

/-- C6 witness: on a graph holding worker `w`, removal succeeds and drops the
liveness entry. -/
theorem removeWorker_present_removes_absent_noop_witness :
    DAG.hasNode (DepGraph.addWorker DepGraph.initial "w").dag
      (Obj.worker "w", Kind.WORKER) = true ∧
    lookupSt ((DepGraph.addWorker DepGraph.initial "w").removeWorker "w").1.state
      (Obj.worker "w", Kind.WORKER) = none :=
  ⟨by decide,
   ((removeWorker_present_removes_absent_noop
      (DepGraph.addWorker DepGraph.initial "w") "w").1 (by decide)).2⟩

/-- C1 (amended): when addClockMaster fails because the JOB vertex is missing
or because the CLOCKMASTER vertex already exists, the graph and liveness map
are unchanged; mapEatersToFeeders, by contrast, is not transactional. -/
theorem addClockMaster_fail_leaves_unchanged (g : DepGraph) (c : Component)
    (h : g.dag.hasNode (.comp c, .JOB) = false ∨
         g.dag.hasNode (.comp c, .CLOCKMASTER) = true) :
    (g.addClockMaster c).1 = g ∧ (g.addClockMaster c).2.isSome = true := by
  cases hjb : g.dag.hasNode (.comp c, .JOB) with
  | false =>
      unfold DepGraph.addClockMaster
      rw [hjb]
      simp
  | true =>
      rcases h with h | h
      · rw [hjb] at h
        cases h
      · unfold DepGraph.addClockMaster DepGraph.addNodeD DAG.addNode
        rw [hjb, h]
        simp [andThen]

/-- C1 counterexample: mapEatersToFeeders on the graph holding `a` and `b`
raises (for the unresolved entry "ghost") after having already added the
edges for the resolved entry "a": the operation is not transactional. -/
theorem mapEatersToFeeders_not_transactional :
    (DepGraph.mapEatersToFeeders gAB).2.isSome = true ∧
    (DepGraph.mapEatersToFeeders gAB).1.dag.edges ≠ gAB.dag.edges := by
  decide

/-- C1 witness: addClockMaster on the empty graph fails and changes nothing. -/
theorem addClockMaster_fail_leaves_unchanged_witness :
    (DAG.hasNode DepGraph.initial.dag (Obj.comp cmpA, Kind.JOB) = false ∨
     DAG.hasNode DepGraph.initial.dag (Obj.comp cmpA, Kind.CLOCKMASTER) = true) ∧
    ((DepGraph.addClockMaster DepGraph.initial cmpA).1 = DepGraph.initial ∧
     (DepGraph.addClockMaster DepGraph.initial cmpA).2.isSome = true) :=
  ⟨Or.inl (by decide),
   addClockMaster_fail_leaves_unchanged DepGraph.initial cmpA (Or.inl (by decide))⟩

/-- C2 witness: invalidating the setup of `a` also invalidates its start. -/
theorem setState_false_invalidates_same_obj_offspring_witness :
    DAG.hasNode gA.dag (Obj.comp cmpA, Kind.COMPONENTSETUP) = true ∧
    lookupSt (gA.setState (Obj.comp cmpA) Kind.COMPONENTSETUP false).state
      (Obj.comp cmpA, Kind.COMPONENTSTART) = some false :=
  ⟨by decide,
   ((setState_false_invalidates_same_obj_offspring gA (Obj.comp cmpA)
       Kind.COMPONENTSETUP (by decide)).2
       (Obj.comp cmpA, Kind.COMPONENTSTART)).1
     (Or.inr ⟨Relation.TransGen.single
       (show ((Obj.comp cmpA, Kind.COMPONENTSETUP),
              (Obj.comp cmpA, Kind.COMPONENTSTART)) ∈ gA.dag.edges by decide),
       by decide, rfl⟩)⟩

/-- C9 witness: marking the job of `a` started changes only that entry. -/
theorem setState_true_only_target_witness :
    DAG.hasNode gA.dag (Obj.comp cmpA, Kind.JOB) = true ∧
    lookupSt (gA.setState (Obj.comp cmpA) Kind.JOB true).state
      (Obj.comp cmpA, Kind.JOB) = some true :=
  ⟨by decide,
   (setState_true_only_target gA (Obj.comp cmpA) Kind.JOB (by decide)).2.1⟩

theorem tryAddEdgeSwallow_ok {g g1 : DepGraph} {p c : Vertex}
    (h : DepGraph.tryAddEdgeSwallow g p c = (g1, none)) :
    g1.dag.nodes = g.dag.nodes ∧ g1.state = g.state ∧
    (p, c) ∈ g1.dag.edges ∧ (∀ e ∈ g.dag.edges, e ∈ g1.dag.edges) ∧
    g.dag.hasNode p = true ∧ g.dag.hasNode c = true := by
  unfold DepGraph.tryAddEdgeSwallow at h
  cases he : g.addEdgeD p c with
  | mk g2 oe =>
      cases oe with
      | none =>
          rw [he] at h
          injection h with h4 h5
          subst h4
          obtain ⟨n1, n2, n3, n4, n5, -, -⟩ := addEdgeD_ok he
          refine ⟨n1, n3, ?_, ?_, n4, n5⟩
          · rw [n2]
            exact List.mem_append_right _ (List.mem_singleton.mpr rfl)
          · intro e he2
            rw [n2]
            exact List.mem_append_left _ he2
      | some e =>
          obtain ⟨q1, q2⟩ := addEdgeD_error he
          subst q1
          cases e with
          | alreadyExists =>
              rw [he] at h
              injection h with h4 h5
              subst h4
              obtain ⟨m1, m2, m3⟩ := DAG_addEdge_already q2
              exact ⟨rfl, rfl, m1, fun e h2 => h2, m2, m3⟩
          | notFound => rw [he] at h; cases h
          | wouldCycle => rw [he] at h; cases h
          | componentNotAdded => rw [he] at h; cases h
          | noMappedFeeder sEntry => rw [he] at h; cases h

theorem tryAddEdgeSwallow_error {g g1 : DepGraph} {p c : Vertex} {e : Err}
    (h : DepGraph.tryAddEdgeSwallow g p c = (g1, some e)) : g1 = g := by
  unfold DepGraph.tryAddEdgeSwallow at h
  cases he : g.addEdgeD p c with
  | mk g2 oe =>
      cases oe with
      | none => rw [he] at h; cases h
      | some e2 =>
          have hg2 : g2 = g := (addEdgeD_error he).1
          subst hg2
          cases e2 with
          | alreadyExists => rw [he] at h; cases h
          | notFound => rw [he] at h; injection h with h4 h5; exact h4.symm
          | wouldCycle => rw [he] at h; injection h with h4 h5; exact h4.symm
          | componentNotAdded => rw [he] at h; injection h with h4 h5; exact h4.symm
          | noMappedFeeder sE => rw [he] at h; injection h with h4 h5; exact h4.symm

theorem feederLoop_preserves {ec : Obj} {nm : String} :
    ∀ (cs : List Obj) (g : DepGraph) (found : Bool) (g1 : DepGraph) (f1 : Bool)
      (r : Option Err),
      DepGraph.feederLoop ec nm cs g found = ((g1, f1), r) →
      g1.dag.nodes = g.dag.nodes ∧ g1.state = g.state ∧
      (∀ e ∈ g.dag.edges, e ∈ g1.dag.edges) := by
  intro cs
  induction cs with
  | nil =>
      intro g found g1 f1 r h
      injection h with h4 h5
      injection h4 with h4a h4b
      subst h4a
      exact ⟨rfl, rfl, fun e he => he⟩
  | cons fc rest ih =>
      intro g found g1 f1 r h
      unfold DepGraph.feederLoop at h
      by_cases hn : objName fc = some nm
      · rw [if_pos hn] at h
        cases ht1 : DepGraph.tryAddEdgeSwallow g (fc, .COMPONENTSETUP) (ec, .COMPONENTSETUP) with
        | mk ga oe1 =>
            cases oe1 with
            | some e1 =>
                rw [ht1] at h
                dsimp only at h
                injection h with h4 h5
                injection h4 with h4a h4b
                subst h4a
                have hga : ga = g := tryAddEdgeSwallow_error ht1
                subst hga
                exact ⟨rfl, rfl, fun e he => he⟩
            | none =>
                rw [ht1] at h
                dsimp only at h
                obtain ⟨a1, a2, a3, a4, -, -⟩ := tryAddEdgeSwallow_ok ht1
                cases ht2 : DepGraph.tryAddEdgeSwallow ga (fc, .COMPONENTSTART) (ec, .COMPONENTSTART) with
                | mk gb oe2 =>
                    cases oe2 with
                    | some e2 =>
                        rw [ht2] at h
                        dsimp only at h
                        injection h with h4 h5
                        injection h4 with h4a h4b
                        subst h4a
                        have hgb : gb = ga := tryAddEdgeSwallow_error ht2
                        subst hgb
                        exact ⟨a1, a2, a4⟩
                    | none =>
                        rw [ht2] at h
                        dsimp only at h
                        obtain ⟨b1, b2, b3, b4, -, -⟩ := tryAddEdgeSwallow_ok ht2
                        obtain ⟨c1, c2, c3⟩ := ih gb true g1 f1 r h
                        refine ⟨by rw [c1, b1, a1], by rw [c2, b2, a2], ?_⟩
                        intro e he
                        exact c3 e (b4 e (a4 e he))
      · rw [if_neg hn] at h
        exact ih g found g1 f1 r h

theorem feederLoop_no_match {ec : Obj} {nm : String} :
    ∀ (cs : List Obj) (g : DepGraph) (found : Bool),
      (∀ fc ∈ cs, objName fc ≠ some nm) →
      DepGraph.feederLoop ec nm cs g found = ((g, found), none) := by
  intro cs
  induction cs with
  | nil => intro g found _; rfl
  | cons fc rest ih =>
      intro g found h
      unfold DepGraph.feederLoop
      rw [if_neg (h fc (List.mem_cons_self _ _))]
      exact ih g found (fun x hx => h x (List.mem_cons_of_mem _ hx))

theorem hasNode_congr {d1 d2 : DAG} (h : d1.nodes = d2.nodes) (v : Vertex) :
    d1.hasNode v = d2.hasNode v := by
  unfold DAG.hasNode
  rw [h]

theorem feederLoop_success_edges {ec : Obj} {nm : String} :
    ∀ (cs : List Obj) (g : DepGraph) (found : Bool) (g1 : DepGraph) (f1 : Bool),
      DepGraph.feederLoop ec nm cs g found = ((g1, f1), none) →
      ∀ fc ∈ cs, objName fc = some nm →
        ((fc, Kind.COMPONENTSETUP), (ec, Kind.COMPONENTSETUP)) ∈ g1.dag.edges ∧
        ((fc, Kind.COMPONENTSTART), (ec, Kind.COMPONENTSTART)) ∈ g1.dag.edges ∧
        g1.dag.hasNode (fc, Kind.COMPONENTSETUP) = true ∧
        g1.dag.hasNode (ec, Kind.COMPONENTSETUP) = true ∧
        g1.dag.hasNode (fc, Kind.COMPONENTSTART) = true ∧
        g1.dag.hasNode (ec, Kind.COMPONENTSTART) = true := by
  intro cs
  induction cs with
  | nil =>
      intro g found g1 f1 h fc hfc
      cases hfc
  | cons fc0 rest ih =>
      intro g found g1 f1 h fc hfc hnm
      unfold DepGraph.feederLoop at h
      by_cases hn : objName fc0 = some nm
      · rw [if_pos hn] at h
        cases ht1 : DepGraph.tryAddEdgeSwallow g (fc0, .COMPONENTSETUP) (ec, .COMPONENTSETUP) with
        | mk ga oe1 =>
            cases oe1 with
            | some e1 => rw [ht1] at h; dsimp only at h; cases h
            | none =>
                rw [ht1] at h
                dsimp only at h
                obtain ⟨a1, a2, a3, a4, -, -⟩ := tryAddEdgeSwallow_ok ht1
                cases ht2 : DepGraph.tryAddEdgeSwallow ga (fc0, .COMPONENTSTART) (ec, .COMPONENTSTART) with
                | mk gb oe2 =>
                    cases oe2 with
                    | some e2 => rw [ht2] at h; dsimp only at h; cases h
                    | none =>
                        rw [ht2] at h
                        dsimp only at h
                        have a5 := (tryAddEdgeSwallow_ok ht1).2.2.2.2.1
                        have a6 := (tryAddEdgeSwallow_ok ht1).2.2.2.2.2
                        obtain ⟨b1, b2, b3, b4, b5, b6⟩ := tryAddEdgeSwallow_ok ht2
                        obtain ⟨c1, c2, c3⟩ := feederLoop_preserves rest gb true g1 f1 none h
                        have hng1 : g1.dag.nodes = g.dag.nodes := by rw [c1, b1, a1]
                        have hnga : g1.dag.nodes = ga.dag.nodes := by rw [c1, b1]
                        rcases List.mem_cons.mp hfc with rfl | hrest
                        · refine ⟨c3 _ (b4 _ a3), c3 _ b3, ?_, ?_, ?_, ?_⟩
                          · rw [hasNode_congr hng1]; exact a5
                          · rw [hasNode_congr hng1]; exact a6
                          · rw [hasNode_congr hnga]; exact b5
                          · rw [hasNode_congr hnga]; exact b6
                        · exact ih gb true g1 f1 h fc hrest hnm
      · rw [if_neg hn] at h
        rcases List.mem_cons.mp hfc with rfl | hrest
        · exact absurd hnm hn
        · exact ih g found g1 f1 h fc hrest hnm

theorem feederLoop_found {ec : Obj} {nm : String} :
    ∀ (cs : List Obj) (g : DepGraph) (found : Bool) (g1 : DepGraph)
      (r : Option Err),
      DepGraph.feederLoop ec nm cs g found = ((g1, true), r) →
      found = true ∨ ∃ fc ∈ cs, objName fc = some nm := by
  intro cs
  induction cs with
  | nil =>
      intro g found g1 r h
      injection h with h4 h5
      injection h4 with h4a h4b
      exact Or.inl h4b
  | cons fc0 rest ih =>
      intro g found g1 r h
      unfold DepGraph.feederLoop at h
      by_cases hn : objName fc0 = some nm
      · exact Or.inr ⟨fc0, List.mem_cons_self _ _, hn⟩
      · rw [if_neg hn] at h
        rcases ih g found g1 r h with h1 | ⟨fc, hfc, hnm⟩
        · exact Or.inl h1
        · exact Or.inr ⟨fc, List.mem_cons_of_mem _ hfc, hnm⟩

/-- C10 (amended): a source entry is matched against every COMPONENTSETUP
object in the whole graph by name equality with the prefix before the first
colon; on success the two edges are present from every matching component
(parent flow is not consulted); the no-mapped-feeder error is raised exactly
when no component matches, but an entry with a match can still fail when an
edge insertion would close a cycle. -/
theorem entryStep_global_matching (comps : List Obj) (ec : Obj) (entry : String)
    (g : DepGraph) :
    ((∀ fc ∈ comps, objName fc ≠ some (feederNameOf entry)) →
       DepGraph.entryStep comps ec entry g =
         (g, some (.noMappedFeeder entry))) ∧
    (∀ g1 : DepGraph, DepGraph.entryStep comps ec entry g = (g1, none) →
       (∃ fc ∈ comps, objName fc = some (feederNameOf entry)) ∧
       ∀ fc ∈ comps, objName fc = some (feederNameOf entry) →
         ((fc, Kind.COMPONENTSETUP), (ec, Kind.COMPONENTSETUP)) ∈ g1.dag.edges ∧
         ((fc, Kind.COMPONENTSTART), (ec, Kind.COMPONENTSTART)) ∈ g1.dag.edges) := by
  constructor
  · intro h
    unfold DepGraph.entryStep
    rw [feederLoop_no_match comps g false h]
    simp
  · intro g1 h
    unfold DepGraph.entryStep at h
    cases hf : DepGraph.feederLoop ec (feederNameOf entry) comps g false with
    | mk gp r =>
        obtain ⟨gq, fq⟩ := gp
        cases r with
        | some e => rw [hf] at h; cases h
        | none =>
            rw [hf] at h
            dsimp only at h
            cases fq with
            | false => simp at h
            | true =>
                injection h with h4
                subst h4
                constructor
                · rcases feederLoop_found comps g false gq none hf with h1 | h1
                  · cases h1
                  · exact h1
                · intro fc hfc hnm
                  obtain ⟨e1, e2, -, -, -, -⟩ :=
                    feederLoop_success_edges comps g false gq true hf fc hfc hnm
                  exact ⟨e1, e2⟩

/-- C10 counterexample: in the graph of mutually-eating `x` and `y`, the
source entry "x" of eater `y` fails with a cycle error even though component
`x` matches it, contradicting that an entry fails only when nothing matches. -/
theorem entry_with_match_fails_wouldCycle :
    (Obj.comp cmpX ∈ gXY.dag.getAllNodesByType Kind.COMPONENTSETUP ∧
     objName (Obj.comp cmpX) = some (feederNameOf "x")) ∧
    (DepGraph.entryStep (gXY.dag.getAllNodesByType Kind.COMPONENTSETUP)
      (Obj.comp cmpY) "x"
      (DepGraph.eaterStep (gXY.dag.getAllNodesByType Kind.COMPONENTSETUP)
        (Obj.comp cmpX) gXY).1).2 = some Err.wouldCycle ∧
    (DepGraph.mapEatersToFeeders gXY).2 = some Err.wouldCycle := by
  decide

/-- C10 witness: eater `b` of the two-component graph resolves its entry "a"
against component `a` even though matching is global, and both edges exist. -/
theorem entryStep_global_matching_witness :
    (DepGraph.entryStep (gAB.dag.getAllNodesByType Kind.COMPONENTSETUP)
        (Obj.comp cmpB) "a" gAB).2 = none ∧
    ((Obj.comp cmpA, Kind.COMPONENTSETUP), (Obj.comp cmpB, Kind.COMPONENTSETUP)) ∈
      (DepGraph.entryStep (gAB.dag.getAllNodesByType Kind.COMPONENTSETUP)
        (Obj.comp cmpB) "a" gAB).1.dag.edges ∧
    ((Obj.comp cmpA, Kind.COMPONENTSTART), (Obj.comp cmpB, Kind.COMPONENTSTART)) ∈
      (DepGraph.entryStep (gAB.dag.getAllNodesByType Kind.COMPONENTSETUP)
        (Obj.comp cmpB) "a" gAB).1.dag.edges := by
  refine ⟨by decide, ?_, ?_⟩
  · exact (((entryStep_global_matching (gAB.dag.getAllNodesByType Kind.COMPONENTSETUP)
        (Obj.comp cmpB) "a" gAB).2 _ (by decide)).2
      (Obj.comp cmpA) (by decide) (by decide)).1
  · exact (((entryStep_global_matching (gAB.dag.getAllNodesByType Kind.COMPONENTSETUP)
        (Obj.comp cmpB) "a" gAB).2 _ (by decide)).2
      (Obj.comp cmpA) (by decide) (by decide)).2

/-- C5 counterexample: a liveness setter applied to an absent vertex creates a
ghost liveness entry, so after a sequence of public operations the key set of
the liveness map differs from the vertex set. -/
theorem setter_ghost_breaks_key_sync :
    Reachable (DepGraph.setWorkerStarted DepGraph.initial "w") ∧
    lookupSt (DepGraph.setWorkerStarted DepGraph.initial "w").state
      (Obj.worker "w", Kind.WORKER) = some true ∧
    (DepGraph.setWorkerStarted DepGraph.initial "w").dag.hasNode
      (Obj.worker "w", Kind.WORKER) = false :=
  ⟨Reachable.step (Op.setWorkerStarted "w") Reachable.init, by decide, by decide⟩

/-- The graph holding component `a` with `a` appointed clock master. -/
def gACM : DepGraph := (DepGraph.addClockMaster gA cmpA).1

/-- C8 counterexample: in a reachable state where the JOB vertex of `a` is
present but a clock master was already added, addClockMaster raises instead
of creating the CLOCKMASTER vertex. -/
theorem addClockMaster_second_call_errors :
    Reachable gACM ∧
    DAG.hasNode gACM.dag (Obj.comp cmpA, Kind.JOB) = true ∧
    (DepGraph.addClockMaster gACM cmpA).2 = some Err.alreadyExists :=
  ⟨Reachable.step (Op.addClockMaster cmpA)
     (Reachable.step (Op.addComponent cmpA) Reachable.init),
   by decide, by decide⟩

/-- Whether some object of the list carries the given component name. -/
def anyMatchB (cs : List Obj) (nm : String) : Bool :=
  cs.any (fun fc => decide (objName fc = some nm))

/-- All edges a source entry would add are already present, with their
endpoints, so re-processing the entry is a no-op. -/
def EntrySat (comps : List Obj) (ec : Obj) (nm : String) (h : DepGraph) : Prop :=
  ∀ fc ∈ comps, objName fc = some nm →
    ((fc, Kind.COMPONENTSETUP), (ec, Kind.COMPONENTSETUP)) ∈ h.dag.edges ∧
    ((fc, Kind.COMPONENTSTART), (ec, Kind.COMPONENTSTART)) ∈ h.dag.edges ∧
    h.dag.hasNode (fc, Kind.COMPONENTSETUP) = true ∧
    h.dag.hasNode (ec, Kind.COMPONENTSETUP) = true ∧
    h.dag.hasNode (fc, Kind.COMPONENTSTART) = true ∧
    h.dag.hasNode (ec, Kind.COMPONENTSTART) = true

/-- All entries of an eater component are saturated and resolvable. -/
def EaterSat (comps : List Obj) (ec : Obj) (h : DepGraph) : Prop :=
  ∀ entries, objSource ec = some entries → ∀ entry ∈ entries,
    EntrySat comps ec (feederNameOf entry) h ∧
    anyMatchB comps (feederNameOf entry) = true

theorem tryAddEdgeSwallow_of_mem {h : DepGraph} {p c : Vertex}
    (hp : h.dag.hasNode p = true) (hc : h.dag.hasNode c = true)
    (he : (p, c) ∈ h.dag.edges) :
    DepGraph.tryAddEdgeSwallow h p c = (h, none) := by
  unfold DepGraph.tryAddEdgeSwallow DepGraph.addEdgeD DAG.addEdge
  rw [hp, hc]
  simp [he]

theorem feederLoop_saturated {ec : Obj} {nm : String} :
    ∀ (cs : List Obj) (h : DepGraph) (found : Bool),
      EntrySat cs ec nm h →
      DepGraph.feederLoop ec nm cs h found = ((h, found || anyMatchB cs nm), none) := by
  intro cs
  induction cs with
  | nil =>
      intro h found _
      simp [anyMatchB, DepGraph.feederLoop]
  | cons fc rest ih =>
      intro h found hsat
      unfold DepGraph.feederLoop
      by_cases hn : objName fc = some nm
      · rw [if_pos hn]
        obtain ⟨e1, e2, p1, p2, p3, p4⟩ := hsat fc (List.mem_cons_self _ _) hn
        rw [tryAddEdgeSwallow_of_mem p1 p2 e1]
        dsimp only
        rw [tryAddEdgeSwallow_of_mem p3 p4 e2]
        dsimp only
        rw [ih h true (fun x hx hnx => hsat x (List.mem_cons_of_mem _ hx) hnx)]
        have hmB : anyMatchB (fc :: rest) nm = true := by
          simp [anyMatchB]
          exact Or.inl hn
        rw [hmB]
        simp
      · rw [if_neg hn]
        rw [ih h found (fun x hx hnx => hsat x (List.mem_cons_of_mem _ hx) hnx)]
        have hmB : anyMatchB (fc :: rest) nm = anyMatchB rest nm := by
          simp [anyMatchB, hn]
        rw [hmB]

theorem entryStep_saturated {comps : List Obj} {ec : Obj} {entry : String}
    {h : DepGraph} (hsat : EntrySat comps ec (feederNameOf entry) h)
    (hm : anyMatchB comps (feederNameOf entry) = true) :
    DepGraph.entryStep comps ec entry h = (h, none) := by
  unfold DepGraph.entryStep
  rw [feederLoop_saturated comps h false hsat, hm]
  simp

theorem entryStep_preserves {comps : List Obj} {ec : Obj} {entry : String}
    {g g1 : DepGraph} {r : Option Err}
    (h : DepGraph.entryStep comps ec entry g = (g1, r)) :
    g1.dag.nodes = g.dag.nodes ∧ g1.state = g.state ∧
    (∀ e ∈ g.dag.edges, e ∈ g1.dag.edges) := by
  unfold DepGraph.entryStep at h
  cases hf : DepGraph.feederLoop ec (feederNameOf entry) comps g false with
  | mk gp r2 =>
      obtain ⟨gq, fq⟩ := gp
      have hp := feederLoop_preserves comps g false gq fq r2 hf
      rw [hf] at h
      cases r2 with
      | some e =>
          dsimp only at h
          injection h with h4 h5
          subst h4
          exact hp
      | none =>
          dsimp only at h
          cases fq with
          | true =>
              rw [if_pos rfl] at h
              injection h with h4 h5
              subst h4
              exact hp
          | false =>
              rw [if_neg (by simp)] at h
              injection h with h4 h5
              subst h4
              exact hp

theorem runAll_preserves {α : Type} {f : α → DepGraph → DepGraph × Option Err}
    (hf : ∀ x g g1 r, f x g = (g1, r) →
      g1.dag.nodes = g.dag.nodes ∧ g1.state = g.state ∧
      (∀ e ∈ g.dag.edges, e ∈ g1.dag.edges)) :
    ∀ (xs : List α) (g g1 : DepGraph) (r : Option Err),
      runAll f xs g = (g1, r) →
      g1.dag.nodes = g.dag.nodes ∧ g1.state = g.state ∧
      (∀ e ∈ g.dag.edges, e ∈ g1.dag.edges) := by
  intro xs
  induction xs with
  | nil =>
      intro g g1 r h
      injection h with h4 h5
      subst h4
      exact ⟨rfl, rfl, fun e he => he⟩
  | cons x rest ih =>
      intro g g1 r h
      unfold runAll at h
      cases hx : f x g with
      | mk ga ra =>
          obtain ⟨x1, x2, x3⟩ := hf x g ga ra hx
          rw [hx] at h
          cases ra with
          | none =>
              dsimp only at h
              obtain ⟨y1, y2, y3⟩ := ih ga g1 r h
              exact ⟨by rw [y1, x1], by rw [y2, x2], fun e he => y3 e (x3 e he)⟩
          | some e =>
              dsimp only at h
              injection h with h4 h5
              subst h4
              exact ⟨x1, x2, x3⟩

theorem eaterStep_preserves {comps : List Obj} {ec : Obj} {g g1 : DepGraph}
    {r : Option Err} (h : DepGraph.eaterStep comps ec g = (g1, r)) :
    g1.dag.nodes = g.dag.nodes ∧ g1.state = g.state ∧
    (∀ e ∈ g.dag.edges, e ∈ g1.dag.edges) := by
  unfold DepGraph.eaterStep at h
  cases hs : objSource ec with
  | none =>
      rw [hs] at h
      injection h with h4 h5
      subst h4
      exact ⟨rfl, rfl, fun e he => he⟩
  | some entries =>
      rw [hs] at h
      exact runAll_preserves (fun x g g1 r hx => entryStep_preserves hx)
        entries g g1 r h

theorem EntrySat_mono {comps : List Obj} {ec : Obj} {nm : String}
    {h h1 : DepGraph} (hs : EntrySat comps ec nm h)
    (hn : h1.dag.nodes = h.dag.nodes)
    (hedge : ∀ e ∈ h.dag.edges, e ∈ h1.dag.edges) :
    EntrySat comps ec nm h1 := by
  intro fc hfc hnm
  obtain ⟨e1, e2, p1, p2, p3, p4⟩ := hs fc hfc hnm
  refine ⟨hedge _ e1, hedge _ e2, ?_, ?_, ?_, ?_⟩
  · rw [hasNode_congr hn]; exact p1
  · rw [hasNode_congr hn]; exact p2
  · rw [hasNode_congr hn]; exact p3
  · rw [hasNode_congr hn]; exact p4

theorem EaterSat_mono {comps : List Obj} {ec : Obj} {h h1 : DepGraph}
    (hs : EaterSat comps ec h) (hn : h1.dag.nodes = h.dag.nodes)
    (hedge : ∀ e ∈ h.dag.edges, e ∈ h1.dag.edges) :
    EaterSat comps ec h1 := by
  intro entries hso entry hentry
  obtain ⟨s1, s2⟩ := hs entries hso entry hentry
  exact ⟨EntrySat_mono s1 hn hedge, s2⟩

theorem entryStep_ok_sat {comps : List Obj} {ec : Obj} {entry : String}
    {g g1 : DepGraph} (h : DepGraph.entryStep comps ec entry g = (g1, none)) :
    EntrySat comps ec (feederNameOf entry) g1 ∧
    anyMatchB comps (feederNameOf entry) = true := by
  unfold DepGraph.entryStep at h
  cases hf : DepGraph.feederLoop ec (feederNameOf entry) comps g false with
  | mk gp r2 =>
      obtain ⟨gq, fq⟩ := gp
      rw [hf] at h
      cases r2 with
      | some e => dsimp only at h; cases h
      | none =>
          dsimp only at h
          cases fq with
          | false => simp at h
          | true =>
              rw [if_pos rfl] at h
              injection h with h4 h5
              subst h4
              constructor
              · intro fc hfc hnm
                exact feederLoop_success_edges comps g false gq true hf fc hfc hnm
              · rcases feederLoop_found comps g false gq none hf with h1 | ⟨fc, hfc, hnm⟩
                · cases h1
                · refine List.any_eq_true.mpr ⟨fc, hfc, ?_⟩
                  simpa using hnm

theorem runAll_entryStep_sat {comps : List Obj} {ec : Obj} :
    ∀ (entries : List String) (g g1 : DepGraph),
      runAll (DepGraph.entryStep comps ec) entries g = (g1, none) →
      ∀ entry ∈ entries,
        EntrySat comps ec (feederNameOf entry) g1 ∧
        anyMatchB comps (feederNameOf entry) = true := by
  intro entries
  induction entries with
  | nil =>
      intro g g1 h entry hentry
      cases hentry
  | cons x rest ih =>
      intro g g1 h entry hentry
      unfold runAll at h
      cases hx : DepGraph.entryStep comps ec x g with
      | mk ga ra =>
          rw [hx] at h
          cases ra with
          | some e => dsimp only at h; cases h
          | none =>
              dsimp only at h
              rcases List.mem_cons.mp hentry with rfl | hrest
              · obtain ⟨s1, s2⟩ := entryStep_ok_sat hx
                obtain ⟨y1, y2, y3⟩ := runAll_preserves
                  (fun x g g1 r hx2 => entryStep_preserves hx2) rest ga g1 none h
                exact ⟨EntrySat_mono s1 y1 y3, s2⟩
              · exact ih ga g1 h entry hrest

theorem eaterStep_ok_sat {comps : List Obj} {ec : Obj} {g g1 : DepGraph}
    (h : DepGraph.eaterStep comps ec g = (g1, none)) :
    EaterSat comps ec g1 := by
  intro entries hso entry hentry
  unfold DepGraph.eaterStep at h
  rw [hso] at h
  exact runAll_entryStep_sat entries g g1 h entry hentry

theorem eaterStep_saturated {comps : List Obj} {ec : Obj} {h : DepGraph}
    (hsat : EaterSat comps ec h) :
    DepGraph.eaterStep comps ec h = (h, none) := by
  unfold DepGraph.eaterStep
  cases hso : objSource ec with
  | none => rfl
  | some entries =>
      have hall : ∀ entry ∈ entries,
          EntrySat comps ec (feederNameOf entry) h ∧
          anyMatchB comps (feederNameOf entry) = true :=
        fun entry hentry => hsat entries hso entry hentry
      clear hsat hso
      induction entries with
      | nil => rfl
      | cons x rest ih =>
          unfold runAll
          rw [entryStep_saturated (hall x (List.mem_cons_self _ _)).1
            (hall x (List.mem_cons_self _ _)).2]
          dsimp only
          exact ih (fun entry hentry => hall entry (List.mem_cons_of_mem _ hentry))

theorem runAll_eaterStep_sat {comps : List Obj} :
    ∀ (cs : List Obj) (g g1 : DepGraph),
      runAll (DepGraph.eaterStep comps) cs g = (g1, none) →
      ∀ ec ∈ cs, EaterSat comps ec g1 := by
  intro cs
  induction cs with
  | nil =>
      intro g g1 h ec hec
      cases hec
  | cons x rest ih =>
      intro g g1 h ec hec
      unfold runAll at h
      cases hx : DepGraph.eaterStep comps x g with
      | mk ga ra =>
          rw [hx] at h
          cases ra with
          | some e => dsimp only at h; cases h
          | none =>
              dsimp only at h
              rcases List.mem_cons.mp hec with rfl | hrest
              · obtain ⟨y1, y2, y3⟩ := runAll_preserves
                  (fun x g g1 r hx2 => eaterStep_preserves hx2) rest ga g1 none h
                exact EaterSat_mono (eaterStep_ok_sat hx) y1 y3
              · exact ih ga g1 h ec hrest

theorem runAll_eaterStep_saturated {comps : List Obj} :
    ∀ (cs : List Obj) (h : DepGraph),
      (∀ ec ∈ cs, EaterSat comps ec h) →
      runAll (DepGraph.eaterStep comps) cs h = (h, none) := by
  intro cs
  induction cs with
  | nil => intro h _; rfl
  | cons x rest ih =>
      intro h hall
      unfold runAll
      rw [eaterStep_saturated (hall x (List.mem_cons_self _ _))]
      dsimp only
      exact ih h (fun ec hec => hall ec (List.mem_cons_of_mem _ hec))

theorem getAllNodesByType_congr {d1 d2 : DAG} (h : d1.nodes = d2.nodes)
    (k : Kind) : d1.getAllNodesByType k = d2.getAllNodesByType k := by
  unfold DAG.getAllNodesByType
  rw [h]

/-- C7: mapEatersToFeeders is idempotent: when a call succeeds, an immediately
repeated call also succeeds and leaves the whole state (vertex set, edge set
and liveness map) exactly as the first call left it; duplicate feeder-eater
edges are swallowed rather than raised. -/
theorem mapEatersToFeeders_idempotent (g g1 : DepGraph)
    (h : g.mapEatersToFeeders = (g1, none)) :
    g1.mapEatersToFeeders = (g1, none) := by
  unfold DepGraph.mapEatersToFeeders at h
  have hpre := runAll_preserves (fun x g g1 r hx2 => eaterStep_preserves hx2)
    (g.dag.getAllNodesByType .COMPONENTSETUP) g g1 none h
  show runAll (DepGraph.eaterStep (g1.dag.getAllNodesByType .COMPONENTSETUP))
      (g1.dag.getAllNodesByType .COMPONENTSETUP) g1 = (g1, none)
  rw [getAllNodesByType_congr hpre.1]
  exact runAll_eaterStep_saturated (g.dag.getAllNodesByType .COMPONENTSETUP) g1
    (fun ec hec => runAll_eaterStep_sat (g.dag.getAllNodesByType .COMPONENTSETUP)
      g g1 h ec hec)

/-- A concrete feeder component, used in witness states. -/
def cmpSrc : Component :=
  { name := "src", parent := "f1", workerRequested := "", source := none }

/-- A concrete eater component consuming from `src`. -/
def cmpSnk : Component :=
  { name := "snk", parent := "f1", workerRequested := "", source := some (.many ["src"]) }

/-- The graph holding `src` and `snk`. -/
def gSS : DepGraph :=
  (DepGraph.addComponent (DepGraph.addComponent DepGraph.initial cmpSrc).1 cmpSnk).1

/-- C7 witness: on the src/snk graph a first mapEatersToFeeders succeeds and a
second call returns the same state with no error. -/
theorem mapEatersToFeeders_idempotent_witness :
    gSS.mapEatersToFeeders = (gSS.mapEatersToFeeders.1, none) ∧
    gSS.mapEatersToFeeders.1.mapEatersToFeeders =
      (gSS.mapEatersToFeeders.1, none) :=
  ⟨by decide, mapEatersToFeeders_idempotent gSS gSS.mapEatersToFeeders.1 (by decide)⟩

theorem hasNode_true_iff {d : DAG} {v : Vertex} :
    d.hasNode v = true ↔ v ∈ d.nodes := by
  unfold DAG.hasNode
  exact decide_eq_true_iff

theorem hasNode_false_iff {d : DAG} {v : Vertex} :
    d.hasNode v = false ↔ v ∉ d.nodes := by
  unfold DAG.hasNode
  constructor
  · intro h hmem
    rw [decide_eq_true hmem] at h
    cases h
  · intro h
    exact decide_eq_false h

theorem mem_getAllNodesByType {d : DAG} {y : Obj} {k : Kind} :
    y ∈ d.getAllNodesByType k ↔ (y, k) ∈ d.nodes := by
  unfold DAG.getAllNodesByType
  simp only [List.mem_map, List.mem_filter, decide_eq_true_eq]
  constructor
  · rintro ⟨v, ⟨hv, hk⟩, rfl⟩
    have : v = (v.1, k) := by
      rw [← hk]
    rwa [← this]
  · intro h
    exact ⟨(y, k), ⟨h, rfl⟩, rfl⟩

theorem nodup_getAllNodesByType {d : DAG} (h : d.nodes.Nodup) (k : Kind) :
    (d.getAllNodesByType k).Nodup := by
  unfold DAG.getAllNodesByType
  refine List.Nodup.map_on ?_ (List.Nodup.filter _ h)
  intro x hx y hy hxy
  have hxk : x.2 = k := by simpa using (List.mem_filter.mp hx).2
  have hyk : y.2 = k := by simpa using (List.mem_filter.mp hy).2
  obtain ⟨x1, x2⟩ := x
  obtain ⟨y1, y2⟩ := y
  simp only at hxk hyk hxy
  rw [hxk, hyk, hxy]

theorem transGen_kind_closed {E : List (Vertex × Vertex)} {k0 : Kind}
    (hcl : ∀ e ∈ E, e.1.2 = k0 → e.2.2 = k0) {v u : Vertex} (hv : v.2 = k0)
    (h : Relation.TransGen (erel E) v u) : u.2 = k0 := by
  induction h with
  | single h1 => exact hcl _ h1 hv
  | tail _ h2 ih => exact hcl _ h2 ih

theorem descList_empty_of_no_source {E : List (Vertex × Vertex)}
    {N : List Vertex} (hwf : ∀ e ∈ E, e.1 ∈ N ∧ e.2 ∈ N) {v : Vertex}
    (hv : v ∉ N) : ∀ u, u ∉ descList E v := by
  intro u hu
  obtain ⟨b, h1, -⟩ := Relation.TransGen.head'_iff.mp (descList_sound hu)
  exact hv (hwf _ h1).1

theorem clockEdge_runAll (c : Component) :
    ∀ (ys : List Obj) (gg : DepGraph),
      ys.Nodup →
      (Obj.comp c, Kind.CLOCKMASTER) ∈ gg.dag.nodes →
      (∀ y ∈ ys, (y, Kind.COMPONENTSTART) ∈ gg.dag.nodes) →
      (∀ e ∈ gg.dag.edges, e.1.2 = Kind.COMPONENTSTART →
        e.2.2 = Kind.COMPONENTSTART) →
      (∀ y ∈ ys,
        ((Obj.comp c, Kind.CLOCKMASTER), (y, Kind.COMPONENTSTART)) ∉ gg.dag.edges) →
      ∃ gg1 : DepGraph,
        runAll (DepGraph.clockEdgeStep c) ys gg = (gg1, none) ∧
        gg1.dag.nodes = gg.dag.nodes ∧ gg1.state = gg.state ∧
        gg1.dag.edges = gg.dag.edges ++
          (ys.filter (fun y => decide (objParent y = some c.parent))).map
            (fun y => ((Obj.comp c, Kind.CLOCKMASTER), (y, Kind.COMPONENTSTART))) := by
  intro ys
  induction ys with
  | nil =>
      intro gg _ _ _ _ _
      exact ⟨gg, rfl, rfl, rfl, by simp⟩
  | cons y ys2 ih =>
      intro gg hnd hcm hys hkind hfresh
      by_cases hp : objParent y = some c.parent
      · have haso : gg.dag.addEdge (Obj.comp c, Kind.CLOCKMASTER)
            (y, Kind.COMPONENTSTART) =
            .ok { gg.dag with edges := gg.dag.edges ++
              [((Obj.comp c, Kind.CLOCKMASTER), (y, Kind.COMPONENTSTART))] } := by
          unfold DAG.addEdge
          have hb1 : gg.dag.hasNode (Obj.comp c, Kind.CLOCKMASTER) = true :=
            hasNode_true_iff.mpr hcm
          have hb2 : gg.dag.hasNode (y, Kind.COMPONENTSTART) = true :=
            hasNode_true_iff.mpr (hys y (List.mem_cons_self _ _))
          rw [hb1, hb2]
          rw [if_pos (show (true && true) = true from rfl)]
          rw [if_neg (hfresh y (List.mem_cons_self _ _))]
          have hnc : ¬ ((Obj.comp c, Kind.CLOCKMASTER) = (y, Kind.COMPONENTSTART) ∨
              (Obj.comp c, Kind.CLOCKMASTER) ∈
                descList gg.dag.edges (y, Kind.COMPONENTSTART)) := by
            rintro (h1 | h1)
            · simp at h1
            · have h2 := transGen_kind_closed hkind rfl (descList_sound h1)
              simp at h2
          rw [if_neg hnc]
        have hstep : DepGraph.clockEdgeStep c y gg =
            ({ dag := { gg.dag with edges := gg.dag.edges ++
                [((Obj.comp c, Kind.CLOCKMASTER), (y, Kind.COMPONENTSTART))] },
               state := gg.state }, none) := by
          unfold DepGraph.clockEdgeStep DepGraph.addEdgeD
          rw [if_pos hp, haso]
        have hkind2 : ∀ e ∈ gg.dag.edges ++
            [((Obj.comp c, Kind.CLOCKMASTER), (y, Kind.COMPONENTSTART))],
            e.1.2 = Kind.COMPONENTSTART → e.2.2 = Kind.COMPONENTSTART := by
          intro e he
          rcases List.mem_append.mp he with h1 | h1
          · exact hkind e h1
          · rw [List.mem_singleton.mp h1]
            intro h2
            simp at h2
        have hfresh2 : ∀ y2 ∈ ys2,
            ((Obj.comp c, Kind.CLOCKMASTER), (y2, Kind.COMPONENTSTART)) ∉
              gg.dag.edges ++
                [((Obj.comp c, Kind.CLOCKMASTER), (y, Kind.COMPONENTSTART))] := by
          intro y2 hy2 hmem
          rcases List.mem_append.mp hmem with h1 | h1
          · exact hfresh y2 (List.mem_cons_of_mem _ hy2) h1
          · have hyy : y2 = y := by
              have h3 := List.mem_singleton.mp h1
              injection h3 with u1 u2
              injection u2 with u2
            exact (List.nodup_cons.mp hnd).1 (hyy ▸ hy2)
        obtain ⟨gg1, hrun, e1, e2, e3⟩ := ih
          ({ dag := { gg.dag with edges := gg.dag.edges ++
              [((Obj.comp c, Kind.CLOCKMASTER), (y, Kind.COMPONENTSTART))] },
             state := gg.state })
          (List.Nodup.of_cons hnd) hcm
          (fun y2 hy2 => hys y2 (List.mem_cons_of_mem _ hy2))
          hkind2 hfresh2
        refine ⟨gg1, ?_, e1, e2, ?_⟩
        · unfold runAll
          rw [hstep]
          dsimp only
          exact hrun
        · rw [e3]
          rw [List.filter_cons_of_pos (by simpa using hp)]
          simp [List.append_assoc]
      · have hstep : DepGraph.clockEdgeStep c y gg = (gg, none) := by
          unfold DepGraph.clockEdgeStep
          rw [if_neg hp]
        obtain ⟨gg1, hrun, e1, e2, e3⟩ := ih gg (List.Nodup.of_cons hnd) hcm
          (fun y2 hy2 => hys y2 (List.mem_cons_of_mem _ hy2)) hkind
          (fun y2 hy2 => hfresh y2 (List.mem_cons_of_mem _ hy2))
        refine ⟨gg1, ?_, e1, e2, ?_⟩
        · unfold runAll
          rw [hstep]
          dsimp only
          exact hrun
        · rw [e3, List.filter_cons_of_neg (by simpa using hp)]

/-- C8 (amended): addClockMaster(x) fails with an error and changes nothing
when the JOB vertex is absent; when the JOB and COMPONENTSETUP vertices are
present and no CLOCKMASTER vertex exists yet (the state addComponent leaves),
it creates (x, CLOCKMASTER) with liveness false, adds the edge
(x, COMPONENTSETUP) -> (x, CLOCKMASTER), and adds (x, CLOCKMASTER) ->
(y, COMPONENTSTART) for exactly those existing COMPONENTSTART vertices y
whose parent equals x's parent; when (x, CLOCKMASTER) already exists the call
raises instead of creating it. -/
theorem addClockMaster_spec (g : DepGraph) (c : Component)
    (hnodup : g.dag.nodes.Nodup)
    (hwf : ∀ e ∈ g.dag.edges, e.1 ∈ g.dag.nodes ∧ e.2 ∈ g.dag.nodes)
    (hkind : ∀ e ∈ g.dag.edges, e.1.2 = Kind.COMPONENTSTART →
      e.2.2 = Kind.COMPONENTSTART) :
    (g.dag.hasNode (.comp c, .JOB) = false →
      g.addClockMaster c = (g, some .componentNotAdded)) ∧
    (g.dag.hasNode (.comp c, .JOB) = true →
     g.dag.hasNode (.comp c, .COMPONENTSETUP) = true →
     g.dag.hasNode (.comp c, .CLOCKMASTER) = false →
      (g.addClockMaster c).2 = none ∧
      (g.addClockMaster c).1.dag.nodes =
        g.dag.nodes ++ [(Obj.comp c, Kind.CLOCKMASTER)] ∧
      (g.addClockMaster c).1.state =
        insertSt g.state (Obj.comp c, Kind.CLOCKMASTER) false ∧
      lookupSt (g.addClockMaster c).1.state (Obj.comp c, Kind.CLOCKMASTER) =
        some false ∧
      (g.addClockMaster c).1.dag.edges =
        (g.dag.edges ++
          [((Obj.comp c, Kind.COMPONENTSETUP), (Obj.comp c, Kind.CLOCKMASTER))]) ++
        ((g.dag.getAllNodesByType Kind.COMPONENTSTART).filter
            (fun y => decide (objParent y = some c.parent))).map
          (fun y => ((Obj.comp c, Kind.CLOCKMASTER), (y, Kind.COMPONENTSTART)))) := by
  constructor
  · intro hjf
    unfold DepGraph.addClockMaster
    rw [hjf]
    simp
  · intro hj hsu hcmf
    have hcmnot : (Obj.comp c, Kind.CLOCKMASTER) ∉ g.dag.nodes :=
      hasNode_false_iff.mp hcmf
    have hsum : (Obj.comp c, Kind.COMPONENTSETUP) ∈ g.dag.nodes :=
      hasNode_true_iff.mp hsu
    have h1 : g.dag.addNode (Obj.comp c, Kind.CLOCKMASTER) =
        .ok { nodes := g.dag.nodes ++ [(Obj.comp c, Kind.CLOCKMASTER)],
              edges := g.dag.edges } := by
      unfold DAG.addNode
      rw [hcmf]
      rfl
    have hA : g.addNodeD (Obj.comp c) .CLOCKMASTER =
        ({ dag := { nodes := g.dag.nodes ++ [(Obj.comp c, Kind.CLOCKMASTER)],
                    edges := g.dag.edges },
           state := insertSt g.state (Obj.comp c, Kind.CLOCKMASTER) false },
         none) := by
      unfold DepGraph.addNodeD
      rw [h1]
    have h2 : DAG.addEdge
        { nodes := g.dag.nodes ++ [(Obj.comp c, Kind.CLOCKMASTER)],
          edges := g.dag.edges }
        (Obj.comp c, Kind.COMPONENTSETUP) (Obj.comp c, Kind.CLOCKMASTER) =
        .ok { nodes := g.dag.nodes ++ [(Obj.comp c, Kind.CLOCKMASTER)],
              edges := g.dag.edges ++
                [((Obj.comp c, Kind.COMPONENTSETUP),
                  (Obj.comp c, Kind.CLOCKMASTER))] } := by
      unfold DAG.addEdge
      have hb1 : DAG.hasNode
          { nodes := g.dag.nodes ++ [(Obj.comp c, Kind.CLOCKMASTER)],
            edges := g.dag.edges } (Obj.comp c, Kind.COMPONENTSETUP) = true :=
        hasNode_true_iff.mpr (List.mem_append_left _ hsum)
      have hb2 : DAG.hasNode
          { nodes := g.dag.nodes ++ [(Obj.comp c, Kind.CLOCKMASTER)],
            edges := g.dag.edges } (Obj.comp c, Kind.CLOCKMASTER) = true :=
        hasNode_true_iff.mpr
          (List.mem_append_right _ (List.mem_singleton.mpr rfl))
      rw [hb1, hb2, if_pos (show (true && true) = true from rfl)]
      have hnm : ((Obj.comp c, Kind.COMPONENTSETUP),
          (Obj.comp c, Kind.CLOCKMASTER)) ∉
          (DAG.mk (g.dag.nodes ++ [(Obj.comp c, Kind.CLOCKMASTER)])
            g.dag.edges).edges := by
        intro hmem
        exact hcmnot (hwf _ hmem).2
      rw [if_neg hnm]
      have hnc : ¬ ((Obj.comp c, Kind.COMPONENTSETUP) =
            (Obj.comp c, Kind.CLOCKMASTER) ∨
          (Obj.comp c, Kind.COMPONENTSETUP) ∈
            descList (DAG.mk (g.dag.nodes ++ [(Obj.comp c, Kind.CLOCKMASTER)])
              g.dag.edges).edges (Obj.comp c, Kind.CLOCKMASTER)) := by
        rintro (h3 | h3)
        · simp at h3
        · exact descList_empty_of_no_source hwf hcmnot _ h3
      rw [if_neg hnc]
    have hB : DepGraph.addEdgeD
        { dag := { nodes := g.dag.nodes ++ [(Obj.comp c, Kind.CLOCKMASTER)],
                   edges := g.dag.edges },
          state := insertSt g.state (Obj.comp c, Kind.CLOCKMASTER) false }
        (Obj.comp c, Kind.COMPONENTSETUP) (Obj.comp c, Kind.CLOCKMASTER) =
        ({ dag := { nodes := g.dag.nodes ++ [(Obj.comp c, Kind.CLOCKMASTER)],
                    edges := g.dag.edges ++
                      [((Obj.comp c, Kind.COMPONENTSETUP),
                        (Obj.comp c, Kind.CLOCKMASTER))] },
           state := insertSt g.state (Obj.comp c, Kind.CLOCKMASTER) false },
         none) := by
      unfold DepGraph.addEdgeD
      rw [h2]
    have hacm : g.addClockMaster c =
        runAll (DepGraph.clockEdgeStep c)
          (DAG.getAllNodesByType
            { nodes := g.dag.nodes ++ [(Obj.comp c, Kind.CLOCKMASTER)],
              edges := g.dag.edges ++
                [((Obj.comp c, Kind.COMPONENTSETUP),
                  (Obj.comp c, Kind.CLOCKMASTER))] } Kind.COMPONENTSTART)
          { dag := { nodes := g.dag.nodes ++ [(Obj.comp c, Kind.CLOCKMASTER)],
                     edges := g.dag.edges ++
                       [((Obj.comp c, Kind.COMPONENTSETUP),
                         (Obj.comp c, Kind.CLOCKMASTER))] },
            state := insertSt g.state (Obj.comp c, Kind.CLOCKMASTER) false } := by
      unfold DepGraph.addClockMaster
      rw [hj, if_pos rfl, hA]
      dsimp only [andThen]
      rw [hB]
    have hysq : DAG.getAllNodesByType
        { nodes := g.dag.nodes ++ [(Obj.comp c, Kind.CLOCKMASTER)],
          edges := g.dag.edges ++
            [((Obj.comp c, Kind.COMPONENTSETUP),
              (Obj.comp c, Kind.CLOCKMASTER))] } Kind.COMPONENTSTART =
        g.dag.getAllNodesByType Kind.COMPONENTSTART := by
      unfold DAG.getAllNodesByType
      dsimp only
      rw [List.filter_append]
      simp
    rw [hysq] at hacm
    have hkind2 : ∀ e ∈ g.dag.edges ++
        [((Obj.comp c, Kind.COMPONENTSETUP), (Obj.comp c, Kind.CLOCKMASTER))],
        e.1.2 = Kind.COMPONENTSTART → e.2.2 = Kind.COMPONENTSTART := by
      intro e he
      rcases List.mem_append.mp he with h3 | h3
      · exact hkind e h3
      · rw [List.mem_singleton.mp h3]
        intro h4
        simp at h4
    have hfresh : ∀ y ∈ g.dag.getAllNodesByType Kind.COMPONENTSTART,
        ((Obj.comp c, Kind.CLOCKMASTER), (y, Kind.COMPONENTSTART)) ∉
          g.dag.edges ++
            [((Obj.comp c, Kind.COMPONENTSETUP),
              (Obj.comp c, Kind.CLOCKMASTER))] := by
      intro y _ hmem
      rcases List.mem_append.mp hmem with h3 | h3
      · exact hcmnot (hwf _ h3).1
      · have h4 := List.mem_singleton.mp h3
        injection h4 with u1 u2
        simp at u1
    obtain ⟨gg1, hrun, e1, e2, e3⟩ := clockEdge_runAll c
      (g.dag.getAllNodesByType Kind.COMPONENTSTART)
      { dag := { nodes := g.dag.nodes ++ [(Obj.comp c, Kind.CLOCKMASTER)],
                 edges := g.dag.edges ++
                   [((Obj.comp c, Kind.COMPONENTSETUP),
                     (Obj.comp c, Kind.CLOCKMASTER))] },
        state := insertSt g.state (Obj.comp c, Kind.CLOCKMASTER) false }
      (nodup_getAllNodesByType hnodup _)
      (List.mem_append_right _ (List.mem_singleton.mpr rfl))
      (fun y hy => List.mem_append_left _ (mem_getAllNodesByType.mp hy))
      hkind2 hfresh
    rw [hacm, hrun]
    refine ⟨rfl, ?_, ?_, ?_, ?_⟩
    · rw [e1]
    · rw [e2]
    · rw [e2]
      exact lookupSt_insertSt_self g.state (Obj.comp c, Kind.CLOCKMASTER) false
    · rw [e3]

/-- C8 witness: appointing `src` clock master on the src/snk graph succeeds,
appends the CLOCKMASTER vertex, and wires both same-flow COMPONENTSTART
vertices behind it. -/
theorem addClockMaster_spec_witness :
    DAG.hasNode gSS.dag (Obj.comp cmpSrc, Kind.JOB) = true ∧
    (gSS.addClockMaster cmpSrc).2 = none ∧
    (gSS.addClockMaster cmpSrc).1.dag.nodes =
      gSS.dag.nodes ++ [(Obj.comp cmpSrc, Kind.CLOCKMASTER)] ∧
    (gSS.addClockMaster cmpSrc).1.dag.edges =
      (gSS.dag.edges ++
        [((Obj.comp cmpSrc, Kind.COMPONENTSETUP),
          (Obj.comp cmpSrc, Kind.CLOCKMASTER))]) ++
      ((gSS.dag.getAllNodesByType Kind.COMPONENTSTART).filter
          (fun y => decide (objParent y = some cmpSrc.parent))).map
        (fun y => ((Obj.comp cmpSrc, Kind.CLOCKMASTER), (y, Kind.COMPONENTSTART))) :=
  ⟨by decide,
   ((addClockMaster_spec gSS cmpSrc (by decide) (by decide) (by decide)).2
      (by decide) (by decide) (by decide)).1,
   ((addClockMaster_spec gSS cmpSrc (by decide) (by decide) (by decide)).2
      (by decide) (by decide) (by decide)).2.1,
   ((addClockMaster_spec gSS cmpSrc (by decide) (by decide) (by decide)).2
      (by decide) (by decide) (by decide)).2.2.2.2⟩

theorem exists_min_on {α : Type} (f : α → Nat) :
    ∀ (l : List α), l ≠ [] → ∃ w ∈ l, ∀ u ∈ l, f w ≤ f u := by
  intro l
  induction l with
  | nil => intro h; exact absurd rfl h
  | cons x rest ih =>
      intro _
      cases rest with
      | nil =>
          refine ⟨x, List.mem_singleton.mpr rfl, ?_⟩
          intro u hu
          rw [List.mem_singleton.mp hu]
      | cons y rest2 =>
          obtain ⟨w, hw, hmin⟩ := ih (by simp)
          by_cases hc : f x ≤ f w
          · refine ⟨x, List.mem_cons_self _ _, ?_⟩
            intro u hu
            rcases List.mem_cons.mp hu with rfl | hu2
            · exact Nat.le_refl _
            · exact Nat.le_trans hc (hmin u hu2)
          · refine ⟨w, List.mem_cons_of_mem _ hw, ?_⟩
            intro u hu
            rcases List.mem_cons.mp hu with rfl | hu2
            · exact Nat.le_of_lt (Nat.lt_of_not_le hc)
            · exact hmin u hu2

theorem exists_ready {E : List (Vertex × Vertex)} (hAc : Acyclic E) :
    ∀ (rem : List Vertex), rem ≠ [] →
      ∃ w ∈ rem, DAG.readyIn E rem w = true := by
  intro rem hne
  obtain ⟨w, hw, hmin⟩ := exists_min_on
    (fun v => (rem.toFinset.filter (fun u => v ∈ descList E u)).card) rem hne
  refine ⟨w, hw, ?_⟩
  unfold DAG.readyIn
  rw [List.all_eq_true]
  intro e he
  rw [Bool.not_eq_true', decide_eq_false_iff_not]
  rintro ⟨h2, h1⟩
  have hlt : (rem.toFinset.filter (fun u => e.1 ∈ descList E u)).card <
      (rem.toFinset.filter (fun u => w ∈ descList E u)).card := by
    refine Finset.card_lt_card ?_
    rw [Finset.ssubset_iff_of_subset]
    · refine ⟨e.1, ?_, ?_⟩
      · rw [Finset.mem_filter]
        refine ⟨List.mem_toFinset.mpr h1, ?_⟩
        refine descList_complete (Relation.TransGen.single ?_)
        show (e.1, w) ∈ E
        rw [← h2]
        exact he
      · rw [Finset.mem_filter]
        rintro ⟨-, h3⟩
        exact hAc e.1 (descList_sound h3)
    · intro x hx
      rw [Finset.mem_filter] at hx
      rw [Finset.mem_filter]
      refine ⟨hx.1, ?_⟩
      refine descList_complete ((descList_sound hx.2).tail ?_)
      show (e.1, w) ∈ E
      rw [← h2]
      exact he
  exact Nat.not_le.mpr hlt (hmin e.1 h1)

theorem sortLoop_subset {E : List (Vertex × Vertex)} :
    ∀ (n : Nat) (rem : List Vertex), DAG.sortLoop E n rem ⊆ rem := by
  intro n
  induction n with
  | zero => intro rem x hx; cases hx
  | succ n ih =>
      intro rem x hx
      unfold DAG.sortLoop at hx
      cases hf : rem.find? (DAG.readyIn E rem) with
      | none => rw [hf] at hx; cases hx
      | some v =>
          rw [hf] at hx
          rcases List.mem_cons.mp hx with rfl | hx2
          · exact List.mem_of_find?_eq_some hf
          · exact List.erase_subset _ _ (ih (rem.erase v) hx2)

theorem sortLoop_nodup {E : List (Vertex × Vertex)} :
    ∀ (n : Nat) (rem : List Vertex), rem.Nodup → (DAG.sortLoop E n rem).Nodup := by
  intro n
  induction n with
  | zero => intro rem _; exact List.nodup_nil
  | succ n ih =>
      intro rem hnd
      unfold DAG.sortLoop
      cases hf : rem.find? (DAG.readyIn E rem) with
      | none => exact List.nodup_nil
      | some v =>
          rw [List.nodup_cons]
          refine ⟨?_, ih _ (List.Nodup.erase v hnd)⟩
          intro hv
          have hv2 := sortLoop_subset n (rem.erase v) hv
          exact (List.Nodup.mem_erase_iff hnd).mp hv2 |>.1 rfl

theorem find?_isSome_of_exists {p : Vertex → Bool} {l : List Vertex}
    (h : ∃ x ∈ l, p x = true) : ∃ v, l.find? p = some v := by
  cases hf : l.find? p with
  | some v => exact ⟨v, rfl⟩
  | none =>
      obtain ⟨x, hx, hpx⟩ := h
      rw [List.find?_eq_none] at hf
      exact absurd hpx (hf x hx)

theorem perm_cons_erase_vertex {a : Vertex} :
    ∀ {l : List Vertex}, a ∈ l → l.Perm (a :: l.erase a) := by
  intro l
  induction l with
  | nil => intro h; cases h
  | cons x xs ih =>
      intro h
      by_cases hxa : x = a
      · subst hxa
        rw [List.erase_cons_head]
      · rw [List.erase_cons_tail (by simpa using (fun h2 => hxa h2))]
        have h2 : a ∈ xs := by
          rcases List.mem_cons.mp h with rfl | h3
          · exact absurd rfl hxa
          · exact h3
        exact List.Perm.trans (List.Perm.cons x (ih h2)) (List.Perm.swap a x _)

theorem sortLoop_perm {E : List (Vertex × Vertex)} (hAc : Acyclic E) :
    ∀ (n : Nat) (rem : List Vertex), rem.length ≤ n →
      (DAG.sortLoop E n rem).Perm rem := by
  intro n
  induction n with
  | zero =>
      intro rem hlen
      rw [List.length_eq_zero.mp (Nat.le_zero.mp hlen)]
      exact List.Perm.refl _
  | succ n ih =>
      intro rem hlen
      by_cases hne : rem = []
      · subst hne
        unfold DAG.sortLoop
        simp
      · obtain ⟨v, hfv⟩ := find?_isSome_of_exists (exists_ready hAc rem hne)
        have hvmem : v ∈ rem := List.mem_of_find?_eq_some hfv
        unfold DAG.sortLoop
        rw [hfv]
        have hpos : 0 < rem.length := List.length_pos.mpr hne
        have hlen2 : (rem.erase v).length ≤ n := by
          rw [List.length_erase_of_mem hvmem]
          omega
        refine List.Perm.trans (List.Perm.cons v (ih (rem.erase v) hlen2)) ?_
        exact (perm_cons_erase_vertex hvmem).symm

theorem readyIn_spec {E : List (Vertex × Vertex)} {rem : List Vertex}
    {v : Vertex} (h : DAG.readyIn E rem v = true) :
    ∀ e ∈ E, e.2 = v → e.1 ∉ rem := by
  unfold DAG.readyIn at h
  rw [List.all_eq_true] at h
  intro e he h2 h1
  have h3 := h e he
  rw [Bool.not_eq_true', decide_eq_false_iff_not] at h3
  exact h3 ⟨h2, h1⟩

theorem sortLoop_topo {E : List (Vertex × Vertex)} (hAc : Acyclic E) :
    ∀ (n : Nat) (rem : List Vertex), rem.length ≤ n → rem.Nodup →
      ∀ p cv : Vertex, (p, cv) ∈ E → p ∈ rem → cv ∈ rem →
        ∃ l1 l2, DAG.sortLoop E n rem = l1 ++ p :: l2 ∧ cv ∈ l2 := by
  intro n
  induction n with
  | zero =>
      intro rem hlen _ p cv _ hp _
      rw [List.length_eq_zero.mp (Nat.le_zero.mp hlen)] at hp
      cases hp
  | succ n ih =>
      intro rem hlen hnd p cv hedge hp hcv
      have hne : rem ≠ [] := by
        intro h
        rw [h] at hp
        cases hp
      obtain ⟨v, hfv⟩ := find?_isSome_of_exists (exists_ready hAc rem hne)
      have hvmem : v ∈ rem := List.mem_of_find?_eq_some hfv
      have hready := readyIn_spec (List.find?_some hfv)
      have hcvne : cv ≠ v := by
        rintro rfl
        exact hready (p, cv) hedge rfl hp
      have hpcv : p ≠ cv := by
        rintro rfl
        exact hAc p (Relation.TransGen.single hedge)
      unfold DAG.sortLoop
      rw [hfv]
      dsimp only
      have hpos : 0 < rem.length := List.length_pos.mpr hne
      have hlen2 : (rem.erase v).length ≤ n := by
        rw [List.length_erase_of_mem hvmem]
        omega
      by_cases hpv : p = v
      · subst hpv
        refine ⟨[], DAG.sortLoop E n (rem.erase p), rfl, ?_⟩
        have hcv2 : cv ∈ rem.erase p :=
          (List.Nodup.mem_erase_iff hnd).mpr ⟨hcvne, hcv⟩
        exact ((sortLoop_perm hAc n (rem.erase p) hlen2).mem_iff).mpr hcv2
      · have hp2 : p ∈ rem.erase v :=
          (List.Nodup.mem_erase_iff hnd).mpr ⟨hpv, hp⟩
        have hcv2 : cv ∈ rem.erase v :=
          (List.Nodup.mem_erase_iff hnd).mpr ⟨hcvne, hcv⟩
        obtain ⟨l1, l2, hsplit, hcvl2⟩ := ih (rem.erase v) hlen2
          (List.Nodup.erase v hnd) p cv hedge hp2 hcv2
        exact ⟨v :: l1, l2, by rw [hsplit]; rfl, hcvl2⟩

/-- Well-formedness of the modelled DAG: distinct vertices, edges between
present vertices, no directed cycle. -/
structure WFdag (d : DAG) : Prop where
  nodesNodup : d.nodes.Nodup
  edgesWF : ∀ e ∈ d.edges, e.1 ∈ d.nodes ∧ e.2 ∈ d.nodes
  acyclic : Acyclic d.edges

theorem sort_perm {d : DAG} (h : WFdag d) : d.sort.Perm d.nodes :=
  sortLoop_perm h.acyclic _ _ (Nat.le_refl _)

theorem sort_nodup {d : DAG} (h : WFdag d) : d.sort.Nodup :=
  sortLoop_nodup _ _ h.nodesNodup

theorem sort_topo {d : DAG} (h : WFdag d) {p cv : Vertex}
    (he : (p, cv) ∈ d.edges) :
    ∃ l1 l2, d.sort = l1 ++ p :: l2 ∧ cv ∈ l2 :=
  sortLoop_topo h.acyclic _ _ (Nat.le_refl _) h.nodesNodup p cv he
    (h.edgesWF _ he).1 (h.edgesWF _ he).2

theorem removeAllIn_sublist (offs : List Vertex) :
    ∀ (acc : List Vertex), (DepGraph.removeAllIn acc offs).Sublist acc := by
  induction offs with
  | nil => intro acc; exact List.Sublist.refl _
  | cons k rest ih =>
      intro acc
      exact List.Sublist.trans (ih (acc.erase k)) (List.erase_sublist _ _)

theorem removeAllIn_nodup (offs : List Vertex) :
    ∀ {acc : List Vertex}, acc.Nodup → (DepGraph.removeAllIn acc offs).Nodup := by
  induction offs with
  | nil => intro acc h; exact h
  | cons k rest ih =>
      intro acc h
      exact ih (List.Nodup.erase k h)

theorem mem_removeAllIn (offs : List Vertex) :
    ∀ {acc : List Vertex}, acc.Nodup → ∀ {x : Vertex},
      (x ∈ DepGraph.removeAllIn acc offs ↔ x ∈ acc ∧ x ∉ offs) := by
  induction offs with
  | nil =>
      intro acc _ x
      simp [DepGraph.removeAllIn]
  | cons k rest ih =>
      intro acc hnd x
      show x ∈ DepGraph.removeAllIn (acc.erase k) rest ↔ _
      rw [ih (List.Nodup.erase k hnd), List.Nodup.mem_erase_iff hnd]
      simp only [List.mem_cons]
      constructor
      · rintro ⟨⟨h1, h2⟩, h3⟩
        exact ⟨h2, fun h4 => h4.elim h1 h3⟩
      · rintro ⟨h1, h2⟩
        exact ⟨⟨fun h3 => h2 (Or.inl h3), h1⟩, fun h3 => h2 (Or.inr h3)⟩

theorem wsbsLoop_sublist {g : DepGraph} :
    ∀ (l acc : List Vertex) {ws : List Vertex},
      DepGraph.wsbsLoop g l acc = .ok ws → ws.Sublist acc := by
  intro l
  induction l with
  | nil =>
      intro acc ws h
      injection h with h1
      rw [← h1]
  | cons obj rest ih =>
      intro acc ws h
      unfold DepGraph.wsbsLoop at h
      by_cases hmem : obj ∈ acc
      · rw [if_pos hmem] at h
        cases hlk : lookupSt g.state obj with
        | none => rw [hlk] at h; cases h
        | some b =>
            rw [hlk] at h
            dsimp only at h
            cases b with
            | true =>
                rw [if_pos rfl] at h
                exact List.Sublist.trans (ih _ h) (List.erase_sublist _ _)
            | false =>
                rw [if_neg (by simp)] at h
                by_cases hW : obj.2 = Kind.WORKER
                · rw [if_pos hW] at h
                  exact List.Sublist.trans (ih _ h)
                    (List.Sublist.trans (List.erase_sublist _ _)
                      (removeAllIn_sublist _ acc))
                · rw [if_neg hW] at h
                  by_cases hJ : obj.2 = Kind.JOB
                  · rw [if_pos hJ] at h
                    exact List.Sublist.trans (ih _ h)
                      (List.Sublist.trans (List.erase_sublist _ _)
                        (removeAllIn_sublist _ acc))
                  · rw [if_neg hJ] at h
                    exact ih _ h
      · rw [if_neg hmem] at h
        exact ih _ h

/-- The pruning loop never keeps a vertex it inspected whose liveness is
`true`. -/
theorem wsbsLoop_not_live {g : DepGraph} :
    ∀ (l acc : List Vertex), acc.Nodup →
      ∀ {ws : List Vertex}, DepGraph.wsbsLoop g l acc = .ok ws →
        ∀ v ∈ ws, v ∈ l → lookupSt g.state v ≠ some true := by
  intro l
  induction l with
  | nil =>
      intro acc _ ws _ v _ hvl
      cases hvl
  | cons obj rest ih =>
      intro acc hnd ws h v hv hvl
      unfold DepGraph.wsbsLoop at h
      by_cases hmem : obj ∈ acc
      · rw [if_pos hmem] at h
        cases hlk : lookupSt g.state obj with
        | none => rw [hlk] at h; cases h
        | some b =>
            rw [hlk] at h
            dsimp only at h
            cases b with
            | true =>
                rw [if_pos rfl] at h
                rcases List.mem_cons.mp hvl with rfl | hvrest
                · exfalso
                  have hv2 := (wsbsLoop_sublist rest _ h).subset hv
                  exact ((List.Nodup.mem_erase_iff hnd).mp hv2).1 rfl
                · exact ih _ (List.Nodup.erase obj hnd) h v hv hvrest
            | false =>
                rw [if_neg (by simp)] at h
                rcases List.mem_cons.mp hvl with rfl | hvrest
                · by_cases hW : v.2 = Kind.WORKER
                  · rw [hlk]; simp
                  · rw [hlk]; simp
                · by_cases hW : obj.2 = Kind.WORKER
                  · rw [if_pos hW] at h
                    exact ih _ (List.Nodup.erase obj (removeAllIn_nodup _ hnd)) h
                      v hv hvrest
                  · rw [if_neg hW] at h
                    by_cases hJ : obj.2 = Kind.JOB
                    · rw [if_pos hJ] at h
                      exact ih _ (List.Nodup.erase obj (removeAllIn_nodup _ hnd)) h
                        v hv hvrest
                    · rw [if_neg hJ] at h
                      exact ih _ hnd h v hv hvrest
      · rw [if_neg hmem] at h
        rcases List.mem_cons.mp hvl with rfl | hvrest
        · exact absurd ((wsbsLoop_sublist rest _ h).subset hv) hmem
        · exact ih _ hnd h v hv hvrest

/-- The pruning loop keeps each inspected parent of a kept vertex unless the
parent is live. -/
theorem wsbsLoop_parent {g : DepGraph} (hAc : Acyclic g.dag.edges) :
    ∀ (l acc : List Vertex), acc.Nodup →
      ∀ {ws : List Vertex}, DepGraph.wsbsLoop g l acc = .ok ws →
        ∀ {v p : Vertex}, v ∈ ws → (p, v) ∈ g.dag.edges → p ∈ acc →
          p ∈ ws ∨ lookupSt g.state p = some true := by
  intro l
  induction l with
  | nil =>
      intro acc _ ws h v p hv _ hp
      injection h with h1
      rw [← h1]
      exact Or.inl (h1 ▸ hp)
  | cons obj rest ih =>
      intro acc hnd ws h v p hv hedge hp
      unfold DepGraph.wsbsLoop at h
      by_cases hmem : obj ∈ acc
      · rw [if_pos hmem] at h
        cases hlk : lookupSt g.state obj with
        | none => rw [hlk] at h; cases h
        | some b =>
            rw [hlk] at h
            dsimp only at h
            cases b with
            | true =>
                rw [if_pos rfl] at h
                by_cases hpobj : p = obj
                · subst hpobj
                  exact Or.inr hlk
                · exact ih _ (List.Nodup.erase obj hnd) h hv hedge
                    ((List.Nodup.mem_erase_iff hnd).mpr ⟨hpobj, hp⟩)
            | false =>
                rw [if_neg (by simp)] at h
                have hWJ : ∀ (hK : obj.2 = Kind.WORKER ∨ obj.2 = Kind.JOB),
                    DepGraph.wsbsLoop g rest
                      ((DepGraph.removeAllIn acc
                        (g.dag.getOffspringTyped obj)).erase obj) = .ok ws →
                    p ∈ ws ∨ lookupSt g.state p = some true := by
                  intro hK h2
                  by_cases hpobj : p = obj
                  · exfalso
                    have hvoff : v ∈ g.dag.getOffspringTyped obj := by
                      refine mem_getOffspringTyped.mpr
                        ⟨Relation.TransGen.single (hpobj ▸ hedge), ?_⟩
                      rintro rfl
                      exact hAc v (Relation.TransGen.single (hpobj ▸ hedge))
                    have hv2 := (wsbsLoop_sublist rest _ h2).subset hv
                    have hv3 := List.erase_sublist _ _ |>.subset hv2
                    exact ((mem_removeAllIn _ hnd).mp hv3).2 hvoff
                  · by_cases hpoff : p ∈ g.dag.getOffspringTyped obj
                    · exfalso
                      obtain ⟨htg, -⟩ := mem_getOffspringTyped.mp hpoff
                      have hvoff : v ∈ g.dag.getOffspringTyped obj := by
                        refine mem_getOffspringTyped.mpr ⟨htg.tail hedge, ?_⟩
                        rintro rfl
                        exact hAc v (htg.tail hedge)
                      have hv2 := (wsbsLoop_sublist rest _ h2).subset hv
                      have hv3 := List.erase_sublist _ _ |>.subset hv2
                      exact ((mem_removeAllIn _ hnd).mp hv3).2 hvoff
                    · refine ih _ (List.Nodup.erase obj (removeAllIn_nodup _ hnd))
                        h2 hv hedge ?_
                      refine (List.Nodup.mem_erase_iff
                        (removeAllIn_nodup _ hnd)).mpr ⟨hpobj, ?_⟩
                      exact (mem_removeAllIn _ hnd).mpr ⟨hp, hpoff⟩
                by_cases hW : obj.2 = Kind.WORKER
                · rw [if_pos hW] at h
                  exact hWJ (Or.inl hW) h
                · rw [if_neg hW] at h
                  by_cases hJ : obj.2 = Kind.JOB
                  · rw [if_pos hJ] at h
                    exact hWJ (Or.inr hJ) h
                  · rw [if_neg hJ] at h
                    exact ih _ hnd h hv hedge hp
      · rw [if_neg hmem] at h
        exact ih _ hnd h hv hedge hp

theorem sublist_split_transfer {p v : Vertex} :
    ∀ (m1 : List Vertex) {m2 ws : List Vertex},
      ws.Sublist (m1 ++ p :: m2) → (m1 ++ p :: m2).Nodup →
      p ∈ ws → v ∈ ws → v ∈ m2 →
      ∃ l1 l2, ws = l1 ++ p :: l2 ∧ v ∈ l2 := by
  intro m1
  induction m1 with
  | nil =>
      intro m2 ws hsub hnd hpws hvws hvm2
      rw [List.nil_append] at hsub hnd
      have hpnm2 : p ∉ m2 := (List.nodup_cons.mp hnd).1
      cases hsub with
      | cons _ h1 =>
          exact absurd (h1.subset hpws) hpnm2
      | cons₂ _ h1 =>
          rename_i ws2
          refine ⟨[], ws2, rfl, ?_⟩
          have hvne : v ≠ p := by
            rintro rfl
            exact hpnm2 hvm2
          rcases List.mem_cons.mp hvws with h2 | h2
          · exact absurd h2 hvne
          · exact h2
  | cons a m1r ih =>
      intro m2 ws hsub hnd hpws hvws hvm2
      rw [List.cons_append] at hsub hnd
      have hanotin : a ∉ m1r ++ p :: m2 := (List.nodup_cons.mp hnd).1
      have hnd2 : (m1r ++ p :: m2).Nodup := (List.nodup_cons.mp hnd).2
      have hpa : p ≠ a := by
        rintro rfl
        exact hanotin (List.mem_append_right _ (List.mem_cons_self _ _))
      have hva : v ≠ a := by
        rintro rfl
        exact hanotin (List.mem_append_right _ (List.mem_cons_of_mem _ hvm2))
      cases hsub with
      | cons _ h1 =>
          exact ih h1 hnd2 hpws hvws hvm2
      | cons₂ _ h1 =>
          rename_i ws2
          have hpws2 : p ∈ ws2 := by
            rcases List.mem_cons.mp hpws with h2 | h2
            · exact absurd h2 hpa
            · exact h2
          have hvws2 : v ∈ ws2 := by
            rcases List.mem_cons.mp hvws with h2 | h2
            · exact absurd h2 hva
            · exact h2
          obtain ⟨l1, l2, hsplit, hvl2⟩ := ih h1 hnd2 hpws2 hvws2 hvm2
          exact ⟨a :: l1, l2, by rw [hsplit]; rfl, hvl2⟩

theorem WFdag_initial : WFdag DepGraph.initial.dag := by
  refine ⟨List.nodup_nil, ?_, acyclic_nil⟩
  intro e he
  cases he

theorem DAG_removeNode_ok {d d1 : DAG} {v : Vertex}
    (h : d.removeNode v = .ok d1) :
    d1.nodes = d.nodes.erase v ∧
    d1.edges = d.edges.filter (fun e => decide (¬ (e.1 = v ∨ e.2 = v))) := by
  unfold DAG.removeNode at h
  by_cases h1 : d.hasNode v = true
  · rw [if_pos h1] at h
    injection h with h2
    subst h2
    exact ⟨rfl, rfl⟩
  · rw [if_neg h1] at h
    cases h

theorem WFdag_addNode {d d1 : DAG} {v : Vertex} (h : WFdag d)
    (hok : d.addNode v = .ok d1) : WFdag d1 := by
  obtain ⟨n1, n2, n3⟩ := DAG_addNode_ok hok
  refine ⟨?_, ?_, ?_⟩
  · rw [n1, List.nodup_append]
    exact ⟨h.nodesNodup, List.nodup_singleton _,
      by simpa [List.disjoint_singleton] using hasNode_false_iff.mp n3⟩
  · intro e he
    rw [n2] at he
    rw [n1]
    exact ⟨List.mem_append_left _ (h.edgesWF e he).1,
           List.mem_append_left _ (h.edgesWF e he).2⟩
  · rw [n2]
    exact h.acyclic

theorem WFdag_removeNode {d d1 : DAG} {v : Vertex} (h : WFdag d)
    (hok : d.removeNode v = .ok d1) : WFdag d1 := by
  obtain ⟨n1, n2⟩ := DAG_removeNode_ok hok
  refine ⟨?_, ?_, ?_⟩
  · rw [n1]
    exact List.Nodup.erase v h.nodesNodup
  · intro e he
    rw [n2] at he
    have h2 := List.mem_filter.mp he
    have h3 : ¬ (e.1 = v ∨ e.2 = v) := by simpa using h2.2
    rw [n1]
    constructor
    · exact (List.Nodup.mem_erase_iff h.nodesNodup).mpr
        ⟨fun h4 => h3 (Or.inl h4), (h.edgesWF e h2.1).1⟩
    · exact (List.Nodup.mem_erase_iff h.nodesNodup).mpr
        ⟨fun h4 => h3 (Or.inr h4), (h.edgesWF e h2.1).2⟩
  · rw [n2]
    exact acyclic_of_subset (fun e he => (List.mem_filter.mp he).1) h.acyclic

theorem WFdag_addEdge {d d1 : DAG} {p c : Vertex} (h : WFdag d)
    (hok : d.addEdge p c = .ok d1) : WFdag d1 := by
  obtain ⟨n1, n2, n3, n4, n5, n6⟩ := DAG_addEdge_ok hok
  refine ⟨?_, ?_, ?_⟩
  · rw [n1]
    exact h.nodesNodup
  · intro e he
    rw [n2] at he
    rw [n1]
    rcases List.mem_append.mp he with h2 | h2
    · exact h.edgesWF e h2
    · rw [List.mem_singleton.mp h2]
      exact ⟨hasNode_true_iff.mp n3, hasNode_true_iff.mp n4⟩
  · rw [n2]
    exact acyclic_append h.acyclic n6

theorem WFdag_addNodeD (g : DepGraph) (o : Obj) (k : Kind) (h : WFdag g.dag) :
    WFdag (g.addNodeD o k).1.dag := by
  unfold DepGraph.addNodeD
  cases he : g.dag.addNode (o, k) with
  | ok d => exact WFdag_addNode h he
  | error e => exact h

theorem WFdag_addEdgeD (g : DepGraph) (p c : Vertex) (h : WFdag g.dag) :
    WFdag (g.addEdgeD p c).1.dag := by
  unfold DepGraph.addEdgeD
  cases he : g.dag.addEdge p c with
  | ok d => exact WFdag_addEdge h he
  | error e => exact h

theorem WFdag_tryAddEdgeSwallow (g : DepGraph) (p c : Vertex)
    (h : WFdag g.dag) : WFdag (DepGraph.tryAddEdgeSwallow g p c).1.dag := by
  unfold DepGraph.tryAddEdgeSwallow
  cases he : g.addEdgeD p c with
  | mk g2 oe =>
      have h2 : WFdag g2.dag := by
        have h3 := WFdag_addEdgeD g p c h
        rw [he] at h3
        exact h3
      cases oe with
      | none => exact h2
      | some e =>
          cases e with
          | alreadyExists => exact h
          | notFound => exact h2
          | wouldCycle => exact h2
          | componentNotAdded => exact h2
          | noMappedFeeder sE => exact h2

theorem andThen_pres_wf {r : DepGraph × Option Err}
    {f : DepGraph → DepGraph × Option Err} (hr : WFdag r.1.dag)
    (hf : ∀ g2, WFdag g2.dag → WFdag (f g2).1.dag) :
    WFdag (andThen r f).1.dag := by
  obtain ⟨g2, oe⟩ := r
  cases oe with
  | none => exact hf g2 hr
  | some e => exact hr

theorem runAll_pres_wf {α : Type} {f : α → DepGraph → DepGraph × Option Err}
    (hf : ∀ x g2, WFdag g2.dag → WFdag (f x g2).1.dag) :
    ∀ (xs : List α) (g2 : DepGraph), WFdag g2.dag →
      WFdag (runAll f xs g2).1.dag := by
  intro xs
  induction xs with
  | nil => intro g2 h; exact h
  | cons x rest ih =>
      intro g2 h
      unfold runAll
      cases hx : f x g2 with
      | mk ga ra =>
          have hga : WFdag ga.dag := by
            have h2 := hf x g2 h
            rw [hx] at h2
            exact h2
          cases ra with
          | none => exact ih ga hga
          | some e => exact hga

theorem WFdag_addWorker (g : DepGraph) (w : String) (h : WFdag g.dag) :
    WFdag (g.addWorker w).dag := by
  unfold DepGraph.addWorker
  by_cases h1 : g.dag.hasNode (.worker w, .WORKER) = true
  · rw [if_pos h1]
    exact h
  · rw [if_neg h1]
    exact WFdag_addNodeD g (.worker w) .WORKER h

theorem WFdag_setComponentWorker (g : DepGraph) (c : Component) (w : String)
    (h : WFdag g.dag) : WFdag (g.setComponentWorker c w).1.dag := by
  unfold DepGraph.setComponentWorker
  by_cases h1 : (g.dag.hasNode (.worker w, .WORKER) &&
      g.dag.hasNode (.comp c, .JOB)) = true
  · rw [if_pos h1]
    exact WFdag_addEdgeD g _ _ h
  · rw [if_neg h1]
    exact h

theorem WFdag_addComponent (g : DepGraph) (c : Component) (h : WFdag g.dag) :
    WFdag (g.addComponent c).1.dag := by
  unfold DepGraph.addComponent
  refine andThen_pres_wf (WFdag_addNodeD g _ _ h) (fun g1 h1 => ?_)
  refine andThen_pres_wf (WFdag_addNodeD g1 _ _ h1) (fun g2 h2 => ?_)
  refine andThen_pres_wf (WFdag_addNodeD g2 _ _ h2) (fun g3 h3 => ?_)
  refine andThen_pres_wf (WFdag_addEdgeD g3 _ _ h3) (fun g4 h4 => ?_)
  refine andThen_pres_wf ?_ (fun g5 h5 => WFdag_addEdgeD g5 _ _ h5)
  by_cases hw : c.workerRequested = ""
  · rw [if_pos hw]
    exact h4
  · rw [if_neg hw]
    exact WFdag_setComponentWorker _ c _ (WFdag_addWorker g4 _ h4)

theorem WFdag_removeComponent (g : DepGraph) (c : Component)
    (h : WFdag g.dag) : WFdag (g.removeComponent c).dag := by
  unfold DepGraph.removeComponent
  have hfold : ∀ (ks : List Kind) (gg : DepGraph), WFdag gg.dag →
      WFdag (ks.foldl (fun gg k =>
        if gg.dag.hasNode (.comp c, k) then
          match gg.dag.removeNode (.comp c, k) with
          | .ok d => { dag := d, state := eraseSt gg.state (.comp c, k) }
          | .error _ => gg
        else gg) gg).dag := by
    intro ks
    induction ks with
    | nil => intro gg hgg; exact hgg
    | cons k rest ih =>
        intro gg hgg
        rw [List.foldl_cons]
        refine ih _ ?_
        show WFdag (if gg.dag.hasNode (.comp c, k) then
            match gg.dag.removeNode (.comp c, k) with
            | .ok d => ({ dag := d, state := eraseSt gg.state (.comp c, k) } : DepGraph)
            | .error _ => gg
          else gg).dag
        by_cases h1 : gg.dag.hasNode (.comp c, k) = true
        · rw [if_pos h1]
          cases he : gg.dag.removeNode (.comp c, k) with
          | ok d => exact WFdag_removeNode hgg he
          | error e => exact hgg
        · rw [if_neg h1]
          exact hgg
  exact hfold DepGraph.allKinds g h

theorem WFdag_removeWorker (g : DepGraph) (w : String) (h : WFdag g.dag) :
    WFdag (g.removeWorker w).1.dag := by
  unfold DepGraph.removeWorker
  by_cases h1 : g.dag.hasNode (.worker w, .WORKER) = true
  · rw [if_pos h1]
    cases he : g.dag.removeNode (.worker w, .WORKER) with
    | ok d => exact WFdag_removeNode h he
    | error e => exact h
  · rw [if_neg h1]
    exact h

theorem WFdag_clockEdgeStep (c : Component) (y : Obj) (g : DepGraph)
    (h : WFdag g.dag) : WFdag (DepGraph.clockEdgeStep c y g).1.dag := by
  unfold DepGraph.clockEdgeStep
  by_cases h1 : objParent y = some c.parent
  · rw [if_pos h1]
    exact WFdag_addEdgeD g _ _ h
  · rw [if_neg h1]
    exact h

theorem WFdag_addClockMaster (g : DepGraph) (c : Component) (h : WFdag g.dag) :
    WFdag (g.addClockMaster c).1.dag := by
  unfold DepGraph.addClockMaster
  by_cases h1 : g.dag.hasNode (.comp c, .JOB) = true
  · rw [if_pos h1]
    refine andThen_pres_wf (WFdag_addNodeD g _ _ h) (fun g1 hg1 => ?_)
    refine andThen_pres_wf (WFdag_addEdgeD g1 _ _ hg1) (fun g2 hg2 => ?_)
    exact runAll_pres_wf (fun y gg hgg => WFdag_clockEdgeStep c y gg hgg) _ g2 hg2
  · rw [if_neg h1]
    exact h

theorem WFdag_feederLoop (ec : Obj) (nm : String) :
    ∀ (cs : List Obj) (g : DepGraph) (found : Bool), WFdag g.dag →
      WFdag (DepGraph.feederLoop ec nm cs g found).1.1.dag := by
  intro cs
  induction cs with
  | nil => intro g found h; exact h
  | cons fc rest ih =>
      intro g found h
      unfold DepGraph.feederLoop
      by_cases hn : objName fc = some nm
      · rw [if_pos hn]
        cases ht1 : DepGraph.tryAddEdgeSwallow g (fc, .COMPONENTSETUP)
            (ec, .COMPONENTSETUP) with
        | mk ga oe1 =>
            have hga : WFdag ga.dag := by
              have h2 := WFdag_tryAddEdgeSwallow g (fc, .COMPONENTSETUP)
                (ec, .COMPONENTSETUP) h
              rw [ht1] at h2
              exact h2
            cases oe1 with
            | some e1 => exact hga
            | none =>
                dsimp only
                cases ht2 : DepGraph.tryAddEdgeSwallow ga (fc, .COMPONENTSTART)
                    (ec, .COMPONENTSTART) with
                | mk gb oe2 =>
                    have hgb : WFdag gb.dag := by
                      have h2 := WFdag_tryAddEdgeSwallow ga (fc, .COMPONENTSTART)
                        (ec, .COMPONENTSTART) hga
                      rw [ht2] at h2
                      exact h2
                    cases oe2 with
                    | some e2 => exact hgb
                    | none => exact ih gb true hgb
      · rw [if_neg hn]
        exact ih g found h

theorem WFdag_entryStep (comps : List Obj) (ec : Obj) (entry : String)
    (g : DepGraph) (h : WFdag g.dag) :
    WFdag (DepGraph.entryStep comps ec entry g).1.dag := by
  unfold DepGraph.entryStep
  cases hf : DepGraph.feederLoop ec (feederNameOf entry) comps g false with
  | mk gp r =>
      obtain ⟨gq, fq⟩ := gp
      have hgq : WFdag gq.dag := by
        have h2 := WFdag_feederLoop ec (feederNameOf entry) comps g false h
        rw [hf] at h2
        exact h2
      cases r with
      | some e => exact hgq
      | none =>
          cases fq with
          | true => exact hgq
          | false => exact hgq

theorem WFdag_eaterStep (comps : List Obj) (ec : Obj) (g : DepGraph)
    (h : WFdag g.dag) : WFdag (DepGraph.eaterStep comps ec g).1.dag := by
  unfold DepGraph.eaterStep
  cases hs : objSource ec with
  | none => exact h
  | some entries =>
      exact runAll_pres_wf
        (fun entry gg hgg => WFdag_entryStep comps ec entry gg hgg) entries g h

theorem WFdag_mapEatersToFeeders (g : DepGraph) (h : WFdag g.dag) :
    WFdag g.mapEatersToFeeders.1.dag := by
  unfold DepGraph.mapEatersToFeeders
  exact runAll_pres_wf
    (fun ec gg hgg => WFdag_eaterStep _ ec gg hgg) _ g h

theorem setState_dag (g : DepGraph) (o : Obj) (k : Kind) (value : Bool) :
    (g.setState o k value).dag = g.dag := by
  unfold DepGraph.setState
  cases value with
  | false => rfl
  | true => rfl

theorem WFdag_applyOp (g : DepGraph) (op : Op) (h : WFdag g.dag) :
    WFdag (applyOp g op).dag := by
  cases op with
  | addComponent c => exact WFdag_addComponent g c h
  | addWorker w => exact WFdag_addWorker g w h
  | removeComponent c => exact WFdag_removeComponent g c h
  | removeWorker w => exact WFdag_removeWorker g w h
  | setComponentWorker c w => exact WFdag_setComponentWorker g c w h
  | addClockMaster c => exact WFdag_addClockMaster g c h
  | mapEatersToFeeders => exact WFdag_mapEatersToFeeders g h
  | setComponentStarted c =>
      show WFdag (g.setState _ _ _).dag
      rw [setState_dag]
      exact h
  | setComponentNotStarted c =>
      show WFdag (g.setState _ _ _).dag
      rw [setState_dag]
      exact h
  | setComponentSetup c =>
      show WFdag (g.setState _ _ _).dag
      rw [setState_dag]
      exact h
  | setComponentNotSetup c =>
      show WFdag (g.setState _ _ _).dag
      rw [setState_dag]
      exact h
  | setJobStarted c =>
      show WFdag (g.setState _ _ _).dag
      rw [setState_dag]
      exact h
  | setJobStopped c =>
      show WFdag (g.setState _ _ _).dag
      rw [setState_dag]
      exact h
  | setWorkerStarted w =>
      show WFdag (g.setState _ _ _).dag
      rw [setState_dag]
      exact h
  | setWorkerStopped w =>
      show WFdag (g.setState _ _ _).dag
      rw [setState_dag]
      exact h
  | setClockMasterStarted c =>
      show WFdag (g.setState _ _ _).dag
      rw [setState_dag]
      exact h
  | setClockMasterStopped c =>
      show WFdag (g.setState _ _ _).dag
      rw [setState_dag]
      exact h

theorem reachable_WFdag {g : DepGraph} (h : Reachable g) : WFdag g.dag := by
  induction h with
  | init => exact WFdag_initial
  | step op _ ih => exact WFdag_applyOp _ op ih

/-- C4: in every state reachable by the public operations, whatShouldBeStarted
never returns a vertex whose liveness is already true. -/
theorem whatShouldBeStarted_no_live (g : DepGraph) (hre : Reachable g)
    {ws : List Vertex} (h : g.whatShouldBeStarted = .ok ws) :
    ∀ v ∈ ws, lookupSt g.state v ≠ some true := by
  have hwf := reachable_WFdag hre
  have h2 : DepGraph.wsbsLoop g g.dag.sort g.dag.sort = .ok ws := h
  intro v hv
  exact wsbsLoop_not_live _ _ (sort_nodup hwf) h2 v hv
    ((wsbsLoop_sublist _ _ h2).subset hv)

/-- C3: in every state reachable by the public operations, every vertex
returned by whatShouldBeStarted has all prerequisites met: each parent is
either returned earlier in the same sequence or is already live. -/
theorem whatShouldBeStarted_prereqs (g : DepGraph) (hre : Reachable g)
    {ws : List Vertex} (h : g.whatShouldBeStarted = .ok ws) :
    ∀ v ∈ ws, ∀ p : Vertex, (p, v) ∈ g.dag.edges →
      (∃ l1 l2, ws = l1 ++ p :: l2 ∧ v ∈ l2) ∨
        lookupSt g.state p = some true := by
  have hwf := reachable_WFdag hre
  have h2 : DepGraph.wsbsLoop g g.dag.sort g.dag.sort = .ok ws := h
  intro v hv p hedge
  have hpl : p ∈ g.dag.sort :=
    (sort_perm hwf).mem_iff.mpr (hwf.edgesWF _ hedge).1
  rcases wsbsLoop_parent hwf.acyclic _ _ (sort_nodup hwf) h2 hv hedge hpl with
    hpws | hlive
  · left
    obtain ⟨m1, m2, hsorteq, hvm2⟩ := sort_topo hwf hedge
    refine sublist_split_transfer m1 ?_ ?_ hpws hv hvm2
    · rw [← hsorteq]
      exact wsbsLoop_sublist _ _ h2
    · rw [← hsorteq]
      exact sort_nodup hwf
  · right
    exact hlive

/-- The graph holding component `a` after its job was marked started. -/
def gJobA : DepGraph :=
  applyOp (applyOp DepGraph.initial (Op.addComponent cmpA)) (Op.setJobStarted cmpA)

/-- C3 witness: in the reachable state gJobA, the scheduler returns the setup
and start vertices of `a` in prerequisite order. -/
theorem whatShouldBeStarted_prereqs_witness :
    Reachable gJobA ∧
    gJobA.whatShouldBeStarted =
      .ok [(Obj.comp cmpA, Kind.COMPONENTSETUP),
           (Obj.comp cmpA, Kind.COMPONENTSTART)] ∧
    ((Obj.comp cmpA, Kind.COMPONENTSTART) ∈
      [(Obj.comp cmpA, Kind.COMPONENTSETUP),
       (Obj.comp cmpA, Kind.COMPONENTSTART)] ∧
     ((Obj.comp cmpA, Kind.COMPONENTSETUP),
      (Obj.comp cmpA, Kind.COMPONENTSTART)) ∈ gJobA.dag.edges) ∧
    ((∃ l1 l2, [(Obj.comp cmpA, Kind.COMPONENTSETUP),
                (Obj.comp cmpA, Kind.COMPONENTSTART)] =
        l1 ++ (Obj.comp cmpA, Kind.COMPONENTSETUP) :: l2 ∧
        (Obj.comp cmpA, Kind.COMPONENTSTART) ∈ l2) ∨
      lookupSt gJobA.state (Obj.comp cmpA, Kind.COMPONENTSETUP) = some true) :=
  ⟨Reachable.step (Op.setJobStarted cmpA)
     (Reachable.step (Op.addComponent cmpA) Reachable.init),
   by rfl,
   ⟨by decide, by decide⟩,
   whatShouldBeStarted_prereqs gJobA
     (Reachable.step (Op.setJobStarted cmpA)
       (Reachable.step (Op.addComponent cmpA) Reachable.init))
     (by rfl)
     (Obj.comp cmpA, Kind.COMPONENTSTART) (by decide)
     (Obj.comp cmpA, Kind.COMPONENTSETUP) (by decide)⟩

/-- C4 witness: in the reachable state gJobA no returned vertex is live. -/
theorem whatShouldBeStarted_no_live_witness :
    Reachable gJobA ∧
    gJobA.whatShouldBeStarted =
      .ok [(Obj.comp cmpA, Kind.COMPONENTSETUP),
           (Obj.comp cmpA, Kind.COMPONENTSTART)] ∧
    (∀ v ∈ [(Obj.comp cmpA, Kind.COMPONENTSETUP),
            (Obj.comp cmpA, Kind.COMPONENTSTART)],
      lookupSt gJobA.state v ≠ some true) :=
  ⟨Reachable.step (Op.setJobStarted cmpA)
     (Reachable.step (Op.addComponent cmpA) Reachable.init),
   by rfl,
   fun v hv => whatShouldBeStarted_no_live gJobA
     (Reachable.step (Op.setJobStarted cmpA)
       (Reachable.step (Op.addComponent cmpA) Reachable.init))
     (by rfl) v hv⟩

/-- The liveness map and vertex set agree: each vertex has exactly one entry
and no entry exists for an absent vertex. -/
def SyncInv (g : DepGraph) : Prop :=
  (stateKeys g).Nodup ∧ ∀ v : Vertex, v ∈ stateKeys g ↔ v ∈ g.dag.nodes

/-- Combined invariant of the setter-guarded reachable states. -/
def InvS (g : DepGraph) : Prop := WFdag g.dag ∧ SyncInv g

theorem stateKeys_insertSt_mem {st : List (Vertex × Bool)} {v : Vertex}
    (b : Bool) (h : v ∈ st.map (fun p => p.1)) :
    (insertSt st v b).map (fun p => p.1) = st.map (fun p => p.1) := by
  induction st with
  | nil => simp at h
  | cons p rest ih =>
      obtain ⟨k, c⟩ := p
      by_cases hk : k = v
      · subst hk
        simp [insertSt]
      · rw [List.map_cons] at h
        have h2 : v ∈ rest.map (fun p => p.1) := by
          rcases List.mem_cons.mp h with h3 | h3
          · exact absurd h3.symm hk
          · exact h3
        simp [insertSt, hk, ih h2]

theorem stateKeys_insertSt_not_mem {st : List (Vertex × Bool)} {v : Vertex}
    (b : Bool) (h : v ∉ st.map (fun p => p.1)) :
    (insertSt st v b).map (fun p => p.1) = st.map (fun p => p.1) ++ [v] := by
  induction st with
  | nil => rfl
  | cons p rest ih =>
      obtain ⟨k, c⟩ := p
      have hk : k ≠ v := by
        intro h2
        refine h ?_
        rw [List.map_cons, h2]
        exact List.mem_cons_self _ _
      have h2 : v ∉ rest.map (fun p => p.1) := by
        intro h3
        refine h ?_
        rw [List.map_cons]
        exact List.mem_cons_of_mem _ h3
      simp [insertSt, hk, ih h2]

theorem stateKeys_eraseSt (st : List (Vertex × Bool)) (v : Vertex) :
    (eraseSt st v).map (fun p => p.1) =
      (st.map (fun p => p.1)).filter (fun k => decide (k ≠ v)) := by
  induction st with
  | nil => rfl
  | cons p rest ih =>
      obtain ⟨k, c⟩ := p
      by_cases hk : k = v
      · subst hk
        simp only [eraseSt, List.filter_cons, List.map_cons]
        rw [decide_eq_false (by simp)]
        simpa [eraseSt] using ih
      · simp only [eraseSt, List.filter_cons, List.map_cons]
        rw [decide_eq_true (show (k, c).1 ≠ v from hk)]
        rw [if_pos rfl, if_pos rfl, List.map_cons]
        exact congrArg (List.cons k) (by simpa [eraseSt] using ih)

theorem stateKeys_setFalse_fold (o : Obj) (off : List Vertex) :
    ∀ (st : List (Vertex × Bool)),
      (∀ kid ∈ off, kid.1 = o → kid ∈ st.map (fun p => p.1)) →
      (off.foldl (fun s kid => if kid.1 = o then insertSt s kid false else s)
          st).map (fun p => p.1) = st.map (fun p => p.1) := by
  induction off with
  | nil => intro st _; rfl
  | cons kid rest ih =>
      intro st hmem
      rw [List.foldl_cons]
      by_cases hko : kid.1 = o
      · rw [if_pos hko]
        have hkeys := stateKeys_insertSt_mem false
          (hmem kid (List.mem_cons_self _ _) hko)
        rw [ih (insertSt st kid false) ?_, hkeys]
        intro kid2 hk2 ho2
        rw [hkeys]
        exact hmem kid2 (List.mem_cons_of_mem _ hk2) ho2
      · rw [if_neg hko]
        exact ih st (fun kid2 hk2 ho2 => hmem kid2 (List.mem_cons_of_mem _ hk2) ho2)

theorem SyncInv_keys_eq {g g1 : DepGraph} (h : SyncInv g)
    (hk : stateKeys g1 = stateKeys g) (hn : g1.dag.nodes = g.dag.nodes) :
    SyncInv g1 := by
  constructor
  · rw [hk]
    exact h.1
  · intro v
    rw [hk, hn]
    exact h.2 v

theorem SyncInv_state_eq {g g1 : DepGraph} (h : SyncInv g)
    (hst : g1.state = g.state) (hn : g1.dag.nodes = g.dag.nodes) :
    SyncInv g1 :=
  SyncInv_keys_eq h (by unfold stateKeys; rw [hst]) hn

theorem InvS_addNodeD (g : DepGraph) (o : Obj) (k : Kind) (h : InvS g) :
    InvS (g.addNodeD o k).1 := by
  refine ⟨WFdag_addNodeD g o k h.1, ?_⟩
  unfold DepGraph.addNodeD
  cases he : g.dag.addNode (o, k) with
  | error e => exact h.2
  | ok d =>
      obtain ⟨n1, n2, n3⟩ := DAG_addNode_ok he
      have hnotn : (o, k) ∉ g.dag.nodes := hasNode_false_iff.mp n3
      have hnotk : (o, k) ∉ stateKeys g := fun h2 => hnotn ((h.2.2 _).mp h2)
      constructor
      · show ((insertSt g.state (o, k) false).map (fun p => p.1)).Nodup
        rw [stateKeys_insertSt_not_mem false hnotk]
        rw [List.nodup_append]
        exact ⟨h.2.1, List.nodup_singleton _,
          fun a ha hb => hnotk ((List.mem_singleton.mp hb) ▸ ha)⟩
      · intro v
        show v ∈ (insertSt g.state (o, k) false).map (fun p => p.1) ↔ v ∈ d.nodes
        rw [stateKeys_insertSt_not_mem false hnotk, n1]
        simp only [List.mem_append, List.mem_singleton]
        constructor
        · rintro (h2 | h2)
          · exact Or.inl ((h.2.2 v).mp h2)
          · exact Or.inr h2
        · rintro (h2 | h2)
          · exact Or.inl ((h.2.2 v).mpr h2)
          · exact Or.inr h2

theorem InvS_addEdgeD (g : DepGraph) (p c : Vertex) (h : InvS g) :
    InvS (g.addEdgeD p c).1 := by
  refine ⟨WFdag_addEdgeD g p c h.1, ?_⟩
  unfold DepGraph.addEdgeD
  cases he : g.dag.addEdge p c with
  | error e => exact h.2
  | ok d =>
      obtain ⟨n1, -, -, -, -, -⟩ := DAG_addEdge_ok he
      exact SyncInv_state_eq h.2 rfl n1

theorem andThen_pres_inv {r : DepGraph × Option Err}
    {f : DepGraph → DepGraph × Option Err} (hr : InvS r.1)
    (hf : ∀ g2, InvS g2 → InvS (f g2).1) : InvS (andThen r f).1 := by
  obtain ⟨g2, oe⟩ := r
  cases oe with
  | none => exact hf g2 hr
  | some e => exact hr

theorem runAll_pres_inv {α : Type} {f : α → DepGraph → DepGraph × Option Err}
    (hf : ∀ x g2, InvS g2 → InvS (f x g2).1) :
    ∀ (xs : List α) (g2 : DepGraph), InvS g2 → InvS (runAll f xs g2).1 := by
  intro xs
  induction xs with
  | nil => intro g2 h; exact h
  | cons x rest ih =>
      intro g2 h
      unfold runAll
      cases hx : f x g2 with
      | mk ga ra =>
          have hga : InvS ga := by
            have h2 := hf x g2 h
            rw [hx] at h2
            exact h2
          cases ra with
          | none => exact ih ga hga
          | some e => exact hga

theorem InvS_addWorker (g : DepGraph) (w : String) (h : InvS g) :
    InvS (g.addWorker w) := by
  unfold DepGraph.addWorker
  by_cases h1 : g.dag.hasNode (.worker w, .WORKER) = true
  · rw [if_pos h1]
    exact h
  · rw [if_neg h1]
    exact InvS_addNodeD g (.worker w) .WORKER h

theorem InvS_setComponentWorker (g : DepGraph) (c : Component) (w : String)
    (h : InvS g) : InvS (g.setComponentWorker c w).1 := by
  unfold DepGraph.setComponentWorker
  by_cases h1 : (g.dag.hasNode (.worker w, .WORKER) &&
      g.dag.hasNode (.comp c, .JOB)) = true
  · rw [if_pos h1]
    exact InvS_addEdgeD g _ _ h
  · rw [if_neg h1]
    exact h

theorem InvS_addComponent (g : DepGraph) (c : Component) (h : InvS g) :
    InvS (g.addComponent c).1 := by
  unfold DepGraph.addComponent
  refine andThen_pres_inv (InvS_addNodeD g _ _ h) (fun g1 h1 => ?_)
  refine andThen_pres_inv (InvS_addNodeD g1 _ _ h1) (fun g2 h2 => ?_)
  refine andThen_pres_inv (InvS_addNodeD g2 _ _ h2) (fun g3 h3 => ?_)
  refine andThen_pres_inv (InvS_addEdgeD g3 _ _ h3) (fun g4 h4 => ?_)
  refine andThen_pres_inv ?_ (fun g5 h5 => InvS_addEdgeD g5 _ _ h5)
  by_cases hw : c.workerRequested = ""
  · rw [if_pos hw]
    exact h4
  · rw [if_neg hw]
    exact InvS_setComponentWorker _ c _ (InvS_addWorker g4 _ h4)

theorem InvS_removeNodeStep (gg : DepGraph) (o : Obj) (k : Kind) (d : DAG)
    (hgg : InvS gg) (he : gg.dag.removeNode (o, k) = .ok d) :
    InvS { dag := d, state := eraseSt gg.state (o, k) } := by
  obtain ⟨n1, n2⟩ := DAG_removeNode_ok he
  refine ⟨WFdag_removeNode hgg.1 he, ?_, ?_⟩
  · show ((eraseSt gg.state (o, k)).map (fun p => p.1)).Nodup
    rw [stateKeys_eraseSt]
    exact List.Nodup.filter _ hgg.2.1
  · intro v
    show v ∈ (eraseSt gg.state (o, k)).map (fun p => p.1) ↔ v ∈ d.nodes
    rw [stateKeys_eraseSt, List.mem_filter, n1]
    rw [decide_eq_true_iff]
    constructor
    · rintro ⟨h2, h3⟩
      exact (List.Nodup.mem_erase_iff hgg.1.nodesNodup).mpr
        ⟨h3, (hgg.2.2 v).mp h2⟩
    · intro h2
      obtain ⟨h3, h4⟩ := (List.Nodup.mem_erase_iff hgg.1.nodesNodup).mp h2
      exact ⟨(hgg.2.2 v).mpr h4, h3⟩

theorem InvS_removeComponent (g : DepGraph) (c : Component) (h : InvS g) :
    InvS (g.removeComponent c) := by
  unfold DepGraph.removeComponent
  have hfold : ∀ (ks : List Kind) (gg : DepGraph), InvS gg →
      InvS (ks.foldl (fun gg k =>
        if gg.dag.hasNode (.comp c, k) then
          match gg.dag.removeNode (.comp c, k) with
          | .ok d => { dag := d, state := eraseSt gg.state (.comp c, k) }
          | .error _ => gg
        else gg) gg) := by
    intro ks
    induction ks with
    | nil => intro gg hgg; exact hgg
    | cons k rest ih =>
        intro gg hgg
        rw [List.foldl_cons]
        refine ih _ ?_
        show InvS (if gg.dag.hasNode (.comp c, k) then
            match gg.dag.removeNode (.comp c, k) with
            | .ok d => ({ dag := d, state := eraseSt gg.state (.comp c, k) } : DepGraph)
            | .error _ => gg
          else gg)
        by_cases h1 : gg.dag.hasNode (.comp c, k) = true
        · rw [if_pos h1]
          cases he : gg.dag.removeNode (.comp c, k) with
          | ok d => exact InvS_removeNodeStep gg (.comp c) k d hgg he
          | error e => exact hgg
        · rw [if_neg h1]
          exact hgg
  exact hfold DepGraph.allKinds g h

theorem InvS_removeWorker (g : DepGraph) (w : String) (h : InvS g) :
    InvS (g.removeWorker w).1 := by
  unfold DepGraph.removeWorker
  by_cases h1 : g.dag.hasNode (.worker w, .WORKER) = true
  · rw [if_pos h1]
    cases he : g.dag.removeNode (.worker w, .WORKER) with
    | ok d => exact InvS_removeNodeStep g (.worker w) .WORKER d h he
    | error e => exact h
  · rw [if_neg h1]
    exact h

theorem InvS_clockEdgeStep (c : Component) (y : Obj) (g : DepGraph)
    (h : InvS g) : InvS (DepGraph.clockEdgeStep c y g).1 := by
  unfold DepGraph.clockEdgeStep
  by_cases h1 : objParent y = some c.parent
  · rw [if_pos h1]
    exact InvS_addEdgeD g _ _ h
  · rw [if_neg h1]
    exact h

theorem InvS_addClockMaster (g : DepGraph) (c : Component) (h : InvS g) :
    InvS (g.addClockMaster c).1 := by
  unfold DepGraph.addClockMaster
  by_cases h1 : g.dag.hasNode (.comp c, .JOB) = true
  · rw [if_pos h1]
    refine andThen_pres_inv (InvS_addNodeD g _ _ h) (fun g1 hg1 => ?_)
    refine andThen_pres_inv (InvS_addEdgeD g1 _ _ hg1) (fun g2 hg2 => ?_)
    exact runAll_pres_inv (fun y gg hgg => InvS_clockEdgeStep c y gg hgg) _ g2 hg2
  · rw [if_neg h1]
    exact h

theorem InvS_mapEatersToFeeders (g : DepGraph) (h : InvS g) :
    InvS g.mapEatersToFeeders.1 := by
  refine ⟨WFdag_mapEatersToFeeders g h.1, ?_⟩
  show SyncInv (runAll (DepGraph.eaterStep
    (g.dag.getAllNodesByType .COMPONENTSETUP))
    (g.dag.getAllNodesByType .COMPONENTSETUP) g).1
  cases hr : runAll (DepGraph.eaterStep
      (g.dag.getAllNodesByType .COMPONENTSETUP))
      (g.dag.getAllNodesByType .COMPONENTSETUP) g with
  | mk g1 r =>
      obtain ⟨y1, y2, -⟩ := runAll_preserves
        (fun x gg g2 r2 hx => eaterStep_preserves hx) _ g g1 r hr
      exact SyncInv_state_eq h.2 y2 y1

theorem InvS_setState (g : DepGraph) (o : Obj) (k : Kind) (value : Bool)
    (h : InvS g) (hmem : g.dag.hasNode (o, k) = true) :
    InvS (g.setState o k value) := by
  refine ⟨by rw [setState_dag]; exact h.1, ?_⟩
  have hkmem : (o, k) ∈ stateKeys g :=
    (h.2.2 _).mpr (hasNode_true_iff.mp hmem)
  have hst1 : (insertSt g.state (o, k) value).map (fun p => p.1) =
      g.state.map (fun p => p.1) :=
    stateKeys_insertSt_mem value hkmem
  unfold DepGraph.setState
  cases value with
  | true =>
      exact SyncInv_keys_eq h.2 (by exact hst1) rfl
  | false =>
      refine SyncInv_keys_eq h.2 ?_ rfl
      show ((g.dag.getOffspringTyped (o, k)).foldl
        (fun s kid => if kid.1 = o then insertSt s kid false else s)
        (insertSt g.state (o, k) false)).map (fun p => p.1) = stateKeys g
      rw [stateKeys_setFalse_fold]
      · exact hst1
      · intro kid hkid _
        rw [hst1]
        have hk2 : kid ∈ descList g.dag.edges (o, k) :=
          (List.mem_filter.mp hkid).1
        obtain ⟨e, he, he2⟩ := descList_subset_targets hk2
        have hkn : kid ∈ g.dag.nodes := he2 ▸ (h.1.edgesWF e he).2
        exact (h.2.2 kid).mpr hkn

theorem InvS_applyOp (g : DepGraph) (op : Op) (h : InvS g)
    (hguard : ∀ v, op.setterVertex = some v → g.dag.hasNode v = true) :
    InvS (applyOp g op) := by
  cases op with
  | addComponent c => exact InvS_addComponent g c h
  | addWorker w => exact InvS_addWorker g w h
  | removeComponent c => exact InvS_removeComponent g c h
  | removeWorker w => exact InvS_removeWorker g w h
  | setComponentWorker c w => exact InvS_setComponentWorker g c w h
  | addClockMaster c => exact InvS_addClockMaster g c h
  | mapEatersToFeeders => exact InvS_mapEatersToFeeders g h
  | setComponentStarted c => exact InvS_setState g _ _ _ h (hguard _ rfl)
  | setComponentNotStarted c => exact InvS_setState g _ _ _ h (hguard _ rfl)
  | setComponentSetup c => exact InvS_setState g _ _ _ h (hguard _ rfl)
  | setComponentNotSetup c => exact InvS_setState g _ _ _ h (hguard _ rfl)
  | setJobStarted c => exact InvS_setState g _ _ _ h (hguard _ rfl)
  | setJobStopped c => exact InvS_setState g _ _ _ h (hguard _ rfl)
  | setWorkerStarted w => exact InvS_setState g _ _ _ h (hguard _ rfl)
  | setWorkerStopped w => exact InvS_setState g _ _ _ h (hguard _ rfl)
  | setClockMasterStarted c => exact InvS_setState g _ _ _ h (hguard _ rfl)
  | setClockMasterStopped c => exact InvS_setState g _ _ _ h (hguard _ rfl)

theorem reachableS_InvS {g : DepGraph} (h : ReachableS g) : InvS g := by
  induction h with
  | init =>
      refine ⟨WFdag_initial, List.nodup_nil, ?_⟩
      intro v
      constructor
      · intro h2; cases h2
      · intro h2; cases h2
  | step op _ hguard ih => exact InvS_applyOp _ op ih hguard

/-- C5 (amended): after every sequence of public operations in which each
liveness setter is applied only to a vertex present in the graph, the key set
of the liveness map equals the vertex set: every vertex has exactly one
liveness entry and no entry exists for an absent vertex. -/
theorem reachableS_keys_eq_nodes (g : DepGraph) (h : ReachableS g) :
    (stateKeys g).Nodup ∧
    ∀ v : Vertex, v ∈ stateKeys g ↔ g.dag.hasNode v = true := by
  have h2 := reachableS_InvS h
  refine ⟨h2.2.1, fun v => ?_⟩
  rw [hasNode_true_iff]
  exact h2.2.2 v

/-- C5 witness: the guarded state gJobA has its liveness keys in bijection
with its vertices. -/
theorem reachableS_keys_eq_nodes_witness :
    (stateKeys gJobA).Nodup ∧
    ((Obj.comp cmpA, Kind.JOB) ∈ stateKeys gJobA ↔
      gJobA.dag.hasNode (Obj.comp cmpA, Kind.JOB) = true) :=
  ⟨(reachableS_keys_eq_nodes gJobA
      (ReachableS.step (Op.setJobStarted cmpA)
        (ReachableS.step (Op.addComponent cmpA) ReachableS.init
          (fun v hv => nomatch hv))
        (fun v hv => by injection hv with h2; rw [← h2]; decide))).1,
   (reachableS_keys_eq_nodes gJobA
      (ReachableS.step (Op.setJobStarted cmpA)
        (ReachableS.step (Op.addComponent cmpA) ReachableS.init
          (fun v hv => nomatch hv))
        (fun v hv => by injection hv with h2; rw [← h2]; decide))).2 _⟩
